import Mathlib

/-!
Verification of the queue-service repository: a Redis-backed task queue.

The development shallowly embeds the queue engine (`src/models/queue.ts`,
`src/models/job.ts`), the webhook dispatcher (`src/services/webhook-service.ts`),
the HTTP-task worker's request construction (`src/workers/http-task-worker.ts`)
and the generic worker's webhook invocation (`src/workers/worker.ts`).

Redis state for one queue is a record of lists (waiting/active/completed/failed),
a sorted set (delayed, as id-score pairs), a hash (jobs, as an association list
keyed by job id) and a stats record.  Each Redis command used by the source is
modelled by a small pure function; each Queue method is the sequential
composition the source performs.  `Math.random()` is modelled by an explicit
rational parameter `r` with `0 ≤ r < 1`; wall-clock times are naturals (epoch
milliseconds); JSON payloads are structures.
-/

namespace QueueService

/-- Job lifecycle statuses (the `JobStatus` enum of `src/types/index.ts`). -/
inductive JobStatus where
  | waiting
  | active
  | completed
  | failed
  | delayed
deriving DecidableEq, Repr

/-- Webhook configuration carried by a job (`WebhookConfig`), reduced to the
field the dispatch-count logic reads (`retryAttempts`).  `none` models an
absent field. -/
structure WebhookConfig where
  retryAttempts : Option Nat := none
deriving DecidableEq, Repr

/-- A job record (`src/models/job.ts`).  `data` and `result` are opaque payloads
kept as strings; timestamps are epoch milliseconds.  `delayOpt` is
`options.delay` (0 when absent, matching the `|| 0` reads in the source). -/
structure Job where
  id : String
  data : String := ""
  status : JobStatus := .waiting
  attempts : Nat := 0
  maxAttempts : Nat := 3
  error : Option String := none
  result : Option String := none
  createdAt : Nat := 0
  processedAt : Option Nat := none
  completedAt : Option Nat := none
  failedAt : Option Nat := none
  delayOpt : Nat := 0
  webhook : Option WebhookConfig := none
deriving DecidableEq, Repr

namespace Job

/-- The `Job` constructor: fresh jobs start with `attempts = 0`, status
`delayed` iff a positive delay was supplied, and
`maxAttempts = options?.attempts || 3` (JavaScript `||`: `0` falls back to 3). -/
def mkNew (id : String) (data : String) (attemptsOpt : Option Nat) (delay : Nat)
    (now : Nat) (webhook : Option WebhookConfig) : Job :=
  { id := id
    data := data
    status := if 0 < delay then .delayed else .waiting
    attempts := 0
    maxAttempts := match attemptsOpt with
      | none => 3
      | some n => if n = 0 then 3 else n
    createdAt := now
    delayOpt := delay
    webhook := webhook }

/-- `Job.markAsActive`. -/
def markAsActive (j : Job) (now : Nat) : Job :=
  { j with status := .active, processedAt := some now }

/-- `Job.markAsCompleted`. -/
def markAsCompleted (j : Job) (result : Option String) (now : Nat) : Job :=
  { j with status := .completed, result := result, completedAt := some now }

/-- `Job.markAsFailed`: sets status/error/failedAt and increments `attempts`. -/
def markAsFailed (j : Job) (error : String) (now : Nat) : Job :=
  { j with status := .failed, error := some error, failedAt := some now,
           attempts := j.attempts + 1 }

/-- `Job.canRetry`: `attempts < maxAttempts && status === JobStatus.FAILED`. -/
def canRetry (j : Job) : Bool :=
  decide (j.attempts < j.maxAttempts) && (j.status == .failed)

/-- `Job.getScheduledTime`: `createdAt + (options.delay || 0)`. -/
def getScheduledTime (j : Job) : Nat :=
  j.createdAt + j.delayOpt

end Job

/-- The `stats` hash: the three counters the source increments. -/
structure QueueStats where
  totalJobs : Nat := 0
  completedJobs : Nat := 0
  failedJobs : Nat := 0
deriving DecidableEq, Repr

/-- The Redis state of one queue: the keys under `queue:{name}:`.
`waiting`/`active`/`completed`/`failed` are lists with index 0 the left end
(`LPUSH` prepends, `BRPOP` takes the last element); `delayed` is the sorted set
as id-score pairs; `jobs` is the hash as an association list. -/
structure QState where
  waiting : List String := []
  active : List String := []
  completed : List String := []
  failed : List String := []
  delayed : List (String × Nat) := []
  jobs : List (String × Job) := []
  stats : QueueStats := {}
deriving DecidableEq, Repr

/-- `LREM key 1 v`: remove the first occurrence of `v` (head-to-tail scan). -/
def lremOne (l : List String) (v : String) : List String :=
  match l with
  | [] => []
  | x :: xs => if x = v then xs else x :: lremOne xs v

/-- `ZADD key score member`: update the score if the member exists, insert
otherwise (sorted-set members are unique). -/
def zadd (d : List (String × Nat)) (score : Nat) (id : String) :
    List (String × Nat) :=
  if d.any (fun e => e.1 = id) then
    d.map (fun e => if e.1 = id then (id, score) else e)
  else d ++ [(id, score)]

/-- `ZREM key member`. -/
def zrem (d : List (String × Nat)) (id : String) : List (String × Nat) :=
  d.filter (fun e => e.1 ≠ id)

/-- The members of the delayed sorted set. -/
def delayedIds (d : List (String × Nat)) : List String :=
  d.map (fun e => e.1)

/-- `HGET`: look up a field of the jobs hash. -/
def hget (h : List (String × Job)) (k : String) : Option Job :=
  (h.find? (fun e => e.1 = k)).map (fun e => e.2)

/-- `HSET`: set a field of the jobs hash (a hash holds one value per field). -/
def hset (h : List (String × Job)) (k : String) (v : Job) :
    List (String × Job) :=
  h.filter (fun e => e.1 ≠ k) ++ [(k, v)]

/-- `HDEL`: delete a field of the jobs hash. -/
def hdel (h : List (String × Job)) (k : String) : List (String × Job) :=
  h.filter (fun e => e.1 ≠ k)

/-- `ZRANGEBYSCORE delayed 0 now`: the entries with score ≤ now, in ascending
score order. -/
def zrangebyscore (d : List (String × Nat)) (now : Nat) : List (String × Nat) :=
  (d.filter (fun e => e.2 ≤ now)).insertionSort (fun a b => a.2 ≤ b.2)

/-- The queue options after the constructor merges the caller's options over the
defaults `{concurrency: default, removeOnComplete: true, removeOnFail: false}`
(`Queue.constructor`).  `none` models an absent key, which the object spread
leaves at its default. -/
structure QueueOptions where
  concurrency : Option Nat := none
  removeOnComplete : Option Bool := none
  removeOnFail : Option Bool := none
deriving DecidableEq, Repr

/-- The effective options of a constructed queue. -/
structure EffectiveOptions where
  concurrency : Nat
  removeOnComplete : Bool
  removeOnFail : Bool
deriving DecidableEq, Repr

/-- `Queue.constructor`'s option merge (`defaultConcurrency` is the config value,
5 unless overridden by environment). -/
def resolveOptions (defaultConcurrency : Nat) (o : QueueOptions) :
    EffectiveOptions :=
  { concurrency := o.concurrency.getD defaultConcurrency
    removeOnComplete := o.removeOnComplete.getD true
    removeOnFail := o.removeOnFail.getD false }

namespace Queue

/-- `Queue.addJob`: store the record, route the id to `delayed` (scored by the
scheduled time) when the status is delayed and to `waiting` otherwise, and
increment `stats.totalJobs`. -/
def addJob (s : QState) (j : Job) : QState :=
  let s1 := { s with jobs := hset s.jobs j.id j }
  let s2 :=
    if j.status = .delayed then
      { s1 with delayed := zadd s1.delayed j.getScheduledTime j.id }
    else
      { s1 with waiting := j.id :: s1.waiting }
  { s2 with stats := { s2.stats with totalJobs := s2.stats.totalJobs + 1 } }

/-- One iteration of the loop in `Queue.processDelayedJobs`: remove the id from
`delayed`; if its record exists, flip the record's status to waiting, write it
back, and left-push the id onto `waiting`. -/
def promoteOne (s : QState) (id : String) : QState :=
  let s1 := { s with delayed := zrem s.delayed id }
  match hget s1.jobs id with
  | none => s1
  | some j =>
    let j' := { j with status := JobStatus.waiting }
    { s1 with jobs := hset s1.jobs id j', waiting := id :: s1.waiting }

/-- `Queue.processDelayedJobs`: fetch the ready entries once, then promote each
in ascending score order. -/
def processDelayedJobs (s : QState) (now : Nat) : QState :=
  ((zrangebyscore s.delayed now).map (fun e => e.1)).foldl promoteOne s

/-- `Queue.getNextJob`: promote ready delayed jobs, `BRPOP` from `waiting`;
on a hit load the record (returning `none`, with the id already popped, when the
record is missing), mark it active, left-push onto `active` and write back. -/
def getNextJob (s : QState) (now : Nat) : QState × Option Job :=
  let s1 := processDelayedJobs s now
  match s1.waiting.getLast? with
  | none => (s1, none)
  | some pid =>
    let s2 := { s1 with waiting := s1.waiting.dropLast }
    match hget s2.jobs pid with
    | none => (s2, none)
    | some j =>
      let j' := j.markAsActive now
      ({ s2 with active := j'.id :: s2.active,
                 jobs := hset s2.jobs j'.id j' }, some j')

/-- `Queue.completeJob`: mark completed, `LREM active 1 id`, left-push onto
`completed` unless `removeOnComplete`, write the record back, delete it when
`removeOnComplete`, and increment `stats.completedJobs`. -/
def completeJob (s : QState) (j : Job) (result : Option String) (now : Nat)
    (removeOnComplete : Bool) : QState :=
  let j' := j.markAsCompleted result now
  let s1 := { s with active := lremOne s.active j'.id }
  let s2 :=
    if removeOnComplete then s1
    else { s1 with completed := j'.id :: s1.completed }
  let s3 := { s2 with jobs := hset s2.jobs j'.id j' }
  let s4 :=
    if removeOnComplete then { s3 with jobs := hdel s3.jobs j'.id } else s3
  { s4 with stats := { s4.stats with completedJobs := s4.stats.completedJobs + 1 } }

/-- `Queue.calculateRetryDelay`:
`min(1000 * 2^attempts, 60000)` plus a jitter of `Math.random() * 0.1 * delay`,
floored.  `r` is the value drawn from `Math.random()`. -/
def calculateRetryDelay (attempts : Nat) (r : ℚ) : ℤ :=
  let baseDelay : ℚ := 1000
  let maxDelay : ℚ := 60000
  let delay : ℚ := min (baseDelay * 2 ^ attempts) maxDelay
  let jitter : ℚ := r * (1 / 10) * delay
  ⌊delay + jitter⌋

/-- `Queue.failJob`: mark failed (incrementing `attempts`), `LREM active 1 id`;
if the job can retry, flip it to delayed and `ZADD` it with score
`now + calculateRetryDelay(attempts)`; otherwise left-push onto `failed` unless
`removeOnFail` and increment `stats.failedJobs`.  In both branches the record is
then written back, and finally deleted when `removeOnFail` holds and `canRetry`
is false at that point (after a retry the status is `delayed`, so `canRetry` is
false there too). -/
def failJob (s : QState) (j : Job) (error : String) (now : Nat) (r : ℚ)
    (removeOnFail : Bool) : QState :=
  let j1 := j.markAsFailed error now
  let s1 := { s with active := lremOne s.active j1.id }
  let step :=
    if j1.canRetry then
      let retryDelay := (calculateRetryDelay j1.attempts r).toNat
      let j2 := { j1 with status := JobStatus.delayed }
      ({ s1 with delayed := zadd s1.delayed (now + retryDelay) j2.id }, j2)
    else
      let s2 :=
        if removeOnFail then s1 else { s1 with failed := j1.id :: s1.failed }
      ({ s2 with stats := { s2.stats with failedJobs := s2.stats.failedJobs + 1 } },
       j1)
  let s3 := { step.1 with jobs := hset step.1.jobs step.2.id step.2 }
  if removeOnFail && !step.2.canRetry then
    { s3 with jobs := hdel s3.jobs step.2.id }
  else s3

/-- `Queue.getJob`. -/
def getJob (s : QState) (id : String) : Option Job :=
  hget s.jobs id

/-- `Queue.removeJob`: remove the id from every list, the sorted set and the
hash; report whether anything was removed. -/
def removeJob (s : QState) (id : String) : QState × Bool :=
  let removedAny :=
    id ∈ s.waiting ∨ id ∈ s.active ∨ id ∈ s.completed ∨ id ∈ s.failed ∨
      id ∈ delayedIds s.delayed ∨ (hget s.jobs id).isSome
  ({ s with waiting := s.waiting.filter (fun x => x ≠ id)
            active := s.active.filter (fun x => x ≠ id)
            completed := s.completed.filter (fun x => x ≠ id)
            failed := s.failed.filter (fun x => x ≠ id)
            delayed := zrem s.delayed id
            jobs := hdel s.jobs id },
   decide removedAny)

end Queue

/-! ## Webhook dispatcher (`src/services/webhook-service.ts`) -/

/-- The `webhook` block of a webhook payload. -/
structure WebhookMeta where
  attempt : Nat
  maxAttempts : Nat
deriving DecidableEq, Repr

/-- A webhook request body.  `topAttempt`/`topMaxAttempts` are the stray
top-level `attempt`/`maxAttempts` keys the object spread in
`executeWithRetry` adds next to the declared `WebhookPayload` fields
(they are outside the `webhook` block). -/
structure WebhookPayload where
  event : String
  jobId : String
  jobStatus : JobStatus
  jobError : Option String
  jobAttempts : Nat
  jobMaxAttempts : Nat
  webhook : WebhookMeta
  topAttempt : Option Nat := none
  topMaxAttempts : Option Nat := none
deriving DecidableEq, Repr

/-- The result record returned by the dispatcher. -/
structure WebhookResult where
  success : Bool
  statusCode : Option Nat
  error : Option String
  attempt : Nat
deriving DecidableEq, Repr

/-- The outcome of one outbound webhook HTTP try, as the environment decides
it: a 2xx success, a non-2xx status (axios rejects it under the configured
`validateStatus`), or a transport error. -/
inductive TryOutcome where
  | success (status : Nat)
  | httpFailure (status : Nat) (reason : String)
  | transportError (msg : String)
deriving DecidableEq, Repr

namespace WebhookService

/-- `WebhookService.createPayload`: the `webhook` block is built from the
`attempt` argument and the service-level `maxRetries`
(`config.webhook.retryAttempts`), not from the per-webhook config. -/
def createPayload (job : Job) (event : String) (attempt : Nat)
    (serviceMaxRetries : Nat) : WebhookPayload :=
  { event := event
    jobId := job.id
    jobStatus := job.status
    jobError := job.error
    jobAttempts := job.attempts
    jobMaxAttempts := job.maxAttempts
    webhook := { attempt := attempt, maxAttempts := serviceMaxRetries } }

/-- The body sent on one try: `{...payload, attempt, maxAttempts}` — the spread
adds top-level keys and leaves `payload.webhook` untouched. -/
def sentOnTry (payload : WebhookPayload) (attempt maxAttempts : Nat) :
    WebhookPayload :=
  { payload with topAttempt := some attempt, topMaxAttempts := some maxAttempts }

/-- `WebhookService.calculateRetryDelay`:
`min(1000 * 2^(attempt-1), 30000)` with a ±25% jitter
(`delay * 0.25 * (Math.random() * 2 - 1)`), rounded to the nearest integer
(`Math.round x = ⌊x + 1/2⌋`). -/
def calculateRetryDelay (attempt : Nat) (r : ℚ) : ℤ :=
  let baseDelay : ℚ := 1000
  let maxDelay : ℚ := 30000
  let delay : ℚ := min (baseDelay * 2 ^ (attempt - 1)) maxDelay
  let jitter : ℚ := delay * (1 / 4) * (r * 2 - 1)
  ⌊delay + jitter + 1 / 2⌋

/-- `WebhookService.executeWithRetry`, threading the queue's Redis state `s`
through (the source performs no store operation here, so the state passes
through each call unchanged) and recording every body sent.  `outcomes k` is
the outcome of try `k`.  On failure with `attempt < maxAttempts` the source
sleeps for `calculateRetryDelay attempt` and recurses with the original
payload. -/
def executeWithRetry (s : QState) (payload : WebhookPayload)
    (attempt maxAttempts : Nat) (outcomes : Nat → TryOutcome) :
    QState × List WebhookPayload × WebhookResult :=
  let body := sentOnTry payload attempt maxAttempts
  match outcomes attempt with
  | .success st =>
    (s, [body],
     { success := true, statusCode := some st, error := none, attempt := attempt })
  | .httpFailure st reason =>
    if h : attempt < maxAttempts then
      let rest := executeWithRetry s payload (attempt + 1) maxAttempts outcomes
      (rest.1, body :: rest.2.1, rest.2.2)
    else
      (s, [body],
       { success := false, statusCode := some st,
         error := some ("HTTP " ++ toString st ++ ": " ++ reason),
         attempt := attempt })
  | .transportError msg =>
    if h : attempt < maxAttempts then
      let rest := executeWithRetry s payload (attempt + 1) maxAttempts outcomes
      (rest.1, body :: rest.2.1, rest.2.2)
    else
      (s, [body],
       { success := false, statusCode := none, error := some msg,
         attempt := attempt })
termination_by maxAttempts - attempt

/-- JavaScript `a || b` on an optional number: `0` and absence both fall back. -/
def orDefaultNat (o : Option Nat) (d : Nat) : Nat :=
  match o with
  | none => d
  | some 0 => d
  | some n => n

/-- `WebhookService.executeWebhook`: build the payload with `attempt = 1` and
dispatch with `maxAttempts = webhookConfig.retryAttempts || this.maxRetries`. -/
def executeWebhook (s : QState) (job : Job) (event : String)
    (cfg : WebhookConfig) (serviceMaxRetries : Nat)
    (outcomes : Nat → TryOutcome) :
    QState × List WebhookPayload × WebhookResult :=
  let payload := createPayload job event 1 serviceMaxRetries
  executeWithRetry s payload 1 (orDefaultNat cfg.retryAttempts serviceMaxRetries)
    outcomes

end WebhookService

namespace Worker

/-- `Worker.executeWebhook` (`src/workers/worker.ts`): return early when the job
has no webhook, otherwise call the webhook service and only log the result;
exceptions are caught and logged.  No queue state is read or written. -/
def executeWebhook (s : QState) (job : Job) (event : String)
    (serviceMaxRetries : Nat) (outcomes : Nat → TryOutcome) :
    QState × Option WebhookResult :=
  match job.webhook with
  | none => (s, none)
  | some cfg =>
    let r := WebhookService.executeWebhook s job event cfg serviceMaxRetries
      outcomes
    (r.1, some r.2.2)

end Worker

/-! ## HTTP-task worker (`src/workers/http-task-worker.ts`) -/

namespace HttpTaskWorker

/-- Association-list lookup, first match wins (a JavaScript object has one
value per key). -/
def lookupHeader (hs : List (String × String)) (k : String) : Option String :=
  (hs.find? (fun e => e.1 = k)).map (fun e => e.2)

/-- The default-header object literal of `makeHttpRequest`, in source order:
two service defaults followed by the three correlation headers. -/
def defaultHeaders (job : Job) : List (String × String) :=
  [("Content-Type", "application/json"),
   ("User-Agent", "Queue-Service-HttpWorker/1.0"),
   ("X-Queue-Service-Job-Id", job.id),
   ("X-Queue-Service-Attempt", toString job.attempts),
   ("X-Queue-Service-Max-Attempts", toString job.maxAttempts)]

/-- The headers of the issued request:
`{...defaults-and-correlation, ...httpTask.headers}` — a later spread entry
overrides an earlier one, so a caller-supplied key wins over every default,
the correlation headers included. -/
def requestHeaders (callerHeaders : List (String × String)) (job : Job)
    (k : String) : Option String :=
  match lookupHeader callerHeaders k with
  | some v => some v
  | none => lookupHeader (defaultHeaders job) k

end HttpTaskWorker

/-! ## The closed system: queue state plus the jobs held by workers

A worker calls `completeJob`/`failJob` only on jobs it obtained from
`getNextJob` (`Worker.processJobs` / `HttpTaskWorker.processJobs`), so the
system is modelled as the queue's Redis state together with the list of
leased jobs.  Ids of added jobs are freshly generated UUIDs (`uuidv4()` in
the `Job` constructor), modelled by a freshness hypothesis on `add`. -/

structure WState where
  q : QState
  leased : List Job
deriving DecidableEq, Repr

/-- The effect of one `getNextJob` call on the world: the returned job, if
any, is now held by the calling worker. -/
def nextW (w : WState) (now : Nat) : WState :=
  let p := Queue.getNextJob w.q now
  { q := p.1,
    leased := match p.2 with
      | none => w.leased
      | some j => j :: w.leased }

/-- One operation of the queue engine, as driven by the REST surface
(`addJob`, `removeJob`), the workers (`getNextJob`, then `completeJob` or
`failJob` on the job they hold) and the delayed-job sweeper
(`processDelayedJobs`). -/
inductive Step (opts : EffectiveOptions) : WState → WState → Prop where
  | add (w : WState) (id data : String) (attemptsOpt : Option Nat)
      (delay now : Nat) (webhook : Option WebhookConfig)
      (hfresh : id ∉ w.q.waiting ∧ id ∉ w.q.active ∧
        id ∉ delayedIds w.q.delayed ∧ ∀ jl ∈ w.leased, jl.id ≠ id) :
      Step opts w
        ⟨Queue.addJob w.q (Job.mkNew id data attemptsOpt delay now webhook),
         w.leased⟩
  | next (w : WState) (now : Nat) : Step opts w (nextW w now)
  | complete (w : WState) (j : Job) (result : Option String) (now : Nat)
      (hj : j ∈ w.leased) :
      Step opts w
        ⟨Queue.completeJob w.q j result now opts.removeOnComplete,
         w.leased.erase j⟩
  | fail (w : WState) (j : Job) (error : String) (now : Nat) (r : ℚ)
      (hj : j ∈ w.leased) (hr0 : 0 ≤ r) (hr1 : r < 1) :
      Step opts w
        ⟨Queue.failJob w.q j error now r opts.removeOnFail, w.leased.erase j⟩
  | promote (w : WState) (now : Nat) :
      Step opts w ⟨Queue.processDelayedJobs w.q now, w.leased⟩
  | remove (w : WState) (id : String) :
      Step opts w ⟨(Queue.removeJob w.q id).1, w.leased⟩

/-- The states reachable from the empty queue. -/
inductive Reachable (opts : EffectiveOptions) : WState → Prop where
  | init : Reachable opts ⟨{}, []⟩
  | step (w w' : WState) (hw : Reachable opts w) (hs : Step opts w w') :
      Reachable opts w'

/-- Like `Step`, but never inserting the id `bad` again: no `addJob` of a job
with that id and no `failJob` of a held job with that id. -/
inductive StepAvoiding (opts : EffectiveOptions) (bad : String) :
    WState → WState → Prop where
  | add (w : WState) (id data : String) (attemptsOpt : Option Nat)
      (delay now : Nat) (webhook : Option WebhookConfig)
      (hfresh : id ∉ w.q.waiting ∧ id ∉ w.q.active ∧
        id ∉ delayedIds w.q.delayed ∧ ∀ jl ∈ w.leased, jl.id ≠ id)
      (hbad : id ≠ bad) :
      StepAvoiding opts bad w
        ⟨Queue.addJob w.q (Job.mkNew id data attemptsOpt delay now webhook),
         w.leased⟩
  | next (w : WState) (now : Nat) : StepAvoiding opts bad w (nextW w now)
  | complete (w : WState) (j : Job) (result : Option String) (now : Nat)
      (hj : j ∈ w.leased) :
      StepAvoiding opts bad w
        ⟨Queue.completeJob w.q j result now opts.removeOnComplete,
         w.leased.erase j⟩
  | fail (w : WState) (j : Job) (error : String) (now : Nat) (r : ℚ)
      (hj : j ∈ w.leased) (hr0 : 0 ≤ r) (hr1 : r < 1) (hbad : j.id ≠ bad) :
      StepAvoiding opts bad w
        ⟨Queue.failJob w.q j error now r opts.removeOnFail, w.leased.erase j⟩
  | promote (w : WState) (now : Nat) :
      StepAvoiding opts bad w ⟨Queue.processDelayedJobs w.q now, w.leased⟩
  | remove (w : WState) (id : String) :
      StepAvoiding opts bad w ⟨(Queue.removeJob w.q id).1, w.leased⟩

/-- Iterated `StepAvoiding`. -/
inductive ReachAvoiding (opts : EffectiveOptions) (bad : String) :
    WState → WState → Prop where
  | refl (w : WState) : ReachAvoiding opts bad w w
  | step (w w' w'' : WState) (h : ReachAvoiding opts bad w w')
      (hs : StepAvoiding opts bad w' w'') : ReachAvoiding opts bad w w''

/-- The structural invariant carried along `Reachable`:
the structural sets are mutually disjoint and duplicate-free, leased jobs are
out of `waiting` and `delayed`, hash keys agree with the stored record's id,
and attempt counters are bounded. -/
structure Inv (w : WState) : Prop where
  nodup : (w.q.waiting ++ w.q.active ++ delayedIds w.q.delayed).Nodup
  leased_not_waiting : ∀ j ∈ w.leased, j.id ∉ w.q.waiting
  leased_not_delayed : ∀ j ∈ w.leased, j.id ∉ delayedIds w.q.delayed
  leased_ids_nodup : (w.leased.map Job.id).Nodup
  key_id : ∀ p ∈ w.q.jobs, (Prod.snd p).id = p.1
  rec_le : ∀ p ∈ w.q.jobs, (Prod.snd p).attempts ≤ (Prod.snd p).maxAttempts
  pending_lt : ∀ p ∈ w.q.jobs,
    p.1 ∈ w.q.waiting ∨ p.1 ∈ delayedIds w.q.delayed →
    (Prod.snd p).attempts < (Prod.snd p).maxAttempts
  leased_lt : ∀ j ∈ w.leased, j.attempts < j.maxAttempts

/-- A concrete job used to instantiate theorems with hypotheses. -/
def sampleJob : Job :=
  { id := "job-1", status := JobStatus.active, attempts := 0, maxAttempts := 3 }

/-- A concrete queue state used to instantiate theorems with hypotheses. -/
def sampleState : QState :=
  { active := ["job-1"], jobs := [("job-1", sampleJob)] }

/-! ## Basic lemmas about the Redis primitives -/

theorem hget_hset_self (h : List (String × Job)) (k : String) (v : Job) :
    hget (hset h k v) k = some v := by
  have hnone : (h.filter (fun e => e.1 ≠ k)).find? (fun e => e.1 = k) = none := by
    rw [List.find?_eq_none]
    intro e he
    have := (List.mem_filter.mp he).2
    simpa using this
  simp [hget, hset, List.find?_append, hnone]

theorem hget_hdel_self (h : List (String × Job)) (k : String) :
    hget (hdel h k) k = none := by
  have hnone : (h.filter (fun e => e.1 ≠ k)).find? (fun e => e.1 = k) = none := by
    rw [List.find?_eq_none]
    intro e he
    have := (List.mem_filter.mp he).2
    simpa using this
  simp [hget, hdel, hnone]

theorem hget_hset_ne (h : List (String × Job)) (k k' : String) (v : Job)
    (hne : k' ≠ k) : hget (hset h k v) k' = hget h k' := by
  induction h with
  | nil =>
    simp [hget, hset, List.find?_cons_of_neg, Ne.symm hne, hne]
  | cons e t ih =>
    by_cases he : e.1 = k
    · rw [show hset (e :: t) k v = hset t k v by
        simp [hset, List.filter_cons, he]]
      rw [ih]
      simp [hget, List.find?_cons_of_neg,
        show ¬ (e.1 = k') by rw [he]; exact Ne.symm hne]
    · rw [show hset (e :: t) k v = e :: hset t k v by
        simp [hset, List.filter_cons, he]]
      by_cases he' : e.1 = k'
      · simp [hget, List.find?_cons_of_pos, he']
      · simp only [hget] at ih ⊢
        rw [List.find?_cons_of_neg _ (by simpa using he'),
            List.find?_cons_of_neg _ (by simpa using he')]
        exact ih

theorem mem_of_hget_eq_some (h : List (String × Job)) (k : String) (v : Job)
    (hv : hget h k = some v) : (k, v) ∈ h := by
  simp only [hget, Option.map_eq_some'] at hv
  obtain ⟨e, he, hev⟩ := hv
  have hk := List.find?_some he
  have hmem := List.mem_of_find?_eq_some he
  have : e = (k, v) := by
    obtain ⟨e1, e2⟩ := e
    simp at hk hev
    simp [hk, hev]
  rw [← this]
  exact hmem

theorem mem_hset (h : List (String × Job)) (k : String) (v : Job)
    (p : String × Job) (hp : p ∈ hset h k v) :
    p = (k, v) ∨ (p ∈ h ∧ p.1 ≠ k) := by
  simp only [hset, List.mem_append, List.mem_filter, List.mem_singleton] at hp
  rcases hp with ⟨hmem, hne⟩ | heq
  · right
    exact ⟨hmem, by simpa using hne⟩
  · left
    exact heq

theorem mem_hdel (h : List (String × Job)) (k : String)
    (p : String × Job) (hp : p ∈ hdel h k) : p ∈ h ∧ p.1 ≠ k := by
  simp only [hdel, List.mem_filter] at hp
  exact ⟨hp.1, by simpa using hp.2⟩

theorem lremOne_sublist (l : List String) (v : String) :
    (lremOne l v).Sublist l := by
  induction l with
  | nil => simp [lremOne]
  | cons x xs ih =>
    by_cases hx : x = v
    · simp [lremOne, hx]
    · simpa [lremOne, hx] using ih.cons₂ x

theorem not_mem_lremOne (l : List String) (v : String) (hl : l.Nodup) :
    v ∉ lremOne l v := by
  induction l with
  | nil => simp [lremOne]
  | cons x xs ih =>
    by_cases hx : x = v
    · subst hx
      simpa [lremOne] using (List.nodup_cons.mp hl).1
    · simp only [lremOne, if_neg hx, List.mem_cons]
      push_neg
      exact ⟨Ne.symm hx, ih (List.nodup_cons.mp hl).2⟩

theorem mem_delayedIds (d : List (String × Nat)) (x : String) :
    x ∈ delayedIds d ↔ ∃ sc, (x, sc) ∈ d := by
  simp only [delayedIds, List.mem_map]
  constructor
  · rintro ⟨⟨a, b⟩, hm, rfl⟩
    exact ⟨b, hm⟩
  · rintro ⟨sc, hm⟩
    exact ⟨(x, sc), hm, rfl⟩

theorem delayedIds_zrem (d : List (String × Nat)) (id : String) :
    delayedIds (zrem d id) = (delayedIds d).filter (fun x => x ≠ id) := by
  induction d with
  | nil => simp [delayedIds, zrem]
  | cons e t ih =>
    by_cases he : e.1 = id <;>
      simp [delayedIds, zrem, List.filter_cons, he] at ih ⊢ <;>
      simpa [delayedIds, zrem] using ih

theorem delayedIds_zadd_of_not_mem (d : List (String × Nat)) (sc : Nat)
    (id : String) (h : id ∉ delayedIds d) :
    delayedIds (zadd d sc id) = delayedIds d ++ [id] := by
  have hany : d.any (fun e => e.1 = id) = false := by
    rw [List.any_eq_false]
    intro e he
    simp only [decide_eq_true_eq]
    intro hid
    exact h ((mem_delayedIds d id).mpr ⟨e.2, by rw [← hid]; exact he⟩)
  simp [zadd, hany, delayedIds]

theorem delayedIds_zadd_of_mem (d : List (String × Nat)) (sc : Nat)
    (id : String) (h : id ∈ delayedIds d) :
    delayedIds (zadd d sc id) = delayedIds d := by
  have hany : d.any (fun e => e.1 = id) = true := by
    rw [List.any_eq_true]
    obtain ⟨sc', hm⟩ := (mem_delayedIds d id).mp h
    exact ⟨(id, sc'), hm, by simp⟩
  simp only [zadd, hany, if_true, delayedIds, List.map_map]
  apply List.map_congr_left
  intro e _
  by_cases he : e.1 = id <;> simp [he]

theorem eq_dropLast_append_of_getLast? (l : List String) (a : String)
    (h : l.getLast? = some a) : l = l.dropLast ++ [a] := by
  induction l using List.reverseRecOn with
  | nil => simp at h
  | append_singleton xs x _ =>
    rw [List.getLast?_concat] at h
    obtain rfl : x = a := by simpa using h
    simp

theorem mem_zrangebyscore (d : List (String × Nat)) (now : Nat)
    (e : String × Nat) (he : e ∈ zrangebyscore d now) : e ∈ d ∧ e.2 ≤ now := by
  have hperm : (zrangebyscore d now).Perm (d.filter (fun e => e.2 ≤ now)) :=
    List.perm_insertionSort _ _
  have := hperm.mem_iff.mp he
  have := List.mem_filter.mp this
  exact ⟨this.1, by simpa using this.2⟩

theorem zrangebyscore_ids_nodup (d : List (String × Nat)) (now : Nat)
    (hd : (delayedIds d).Nodup) :
    ((zrangebyscore d now).map (fun e => e.1)).Nodup := by
  have hperm : (zrangebyscore d now).Perm (d.filter (fun e => e.2 ≤ now)) :=
    List.perm_insertionSort _ _
  have hmap : ((zrangebyscore d now).map (fun e => e.1)).Perm
      ((d.filter (fun e => e.2 ≤ now)).map (fun e => e.1)) := hperm.map _
  have hsub : ((d.filter (fun e => e.2 ≤ now)).map (fun e => e.1)).Sublist
      (d.map (fun e => e.1)) := (List.filter_sublist d).map _
  exact hmap.nodup_iff.mpr (hsub.nodup hd)

/-! ## Basic lemmas about jobs -/

namespace Job

@[simp] theorem markAsFailed_id (j : Job) (e : String) (n : Nat) :
    (j.markAsFailed e n).id = j.id := rfl

@[simp] theorem markAsFailed_status (j : Job) (e : String) (n : Nat) :
    (j.markAsFailed e n).status = .failed := rfl

@[simp] theorem markAsFailed_attempts (j : Job) (e : String) (n : Nat) :
    (j.markAsFailed e n).attempts = j.attempts + 1 := rfl

@[simp] theorem markAsFailed_maxAttempts (j : Job) (e : String) (n : Nat) :
    (j.markAsFailed e n).maxAttempts = j.maxAttempts := rfl

@[simp] theorem markAsFailed_error (j : Job) (e : String) (n : Nat) :
    (j.markAsFailed e n).error = some e := rfl

@[simp] theorem markAsFailed_failedAt (j : Job) (e : String) (n : Nat) :
    (j.markAsFailed e n).failedAt = some n := rfl

@[simp] theorem markAsActive_id (j : Job) (n : Nat) :
    (j.markAsActive n).id = j.id := rfl

@[simp] theorem markAsActive_attempts (j : Job) (n : Nat) :
    (j.markAsActive n).attempts = j.attempts := rfl

@[simp] theorem markAsActive_maxAttempts (j : Job) (n : Nat) :
    (j.markAsActive n).maxAttempts = j.maxAttempts := rfl

@[simp] theorem markAsCompleted_id (j : Job) (res : Option String) (n : Nat) :
    (j.markAsCompleted res n).id = j.id := rfl

@[simp] theorem markAsCompleted_attempts (j : Job) (res : Option String) (n : Nat) :
    (j.markAsCompleted res n).attempts = j.attempts := rfl

@[simp] theorem markAsCompleted_maxAttempts (j : Job) (res : Option String) (n : Nat) :
    (j.markAsCompleted res n).maxAttempts = j.maxAttempts := rfl

theorem canRetry_markAsFailed (j : Job) (e : String) (n : Nat) :
    (j.markAsFailed e n).canRetry = decide (j.attempts + 1 < j.maxAttempts) := by
  simp [Job.canRetry]

@[simp] theorem mkNew_id (id data : String) (ao : Option Nat) (d n : Nat)
    (wh : Option WebhookConfig) : (Job.mkNew id data ao d n wh).id = id := rfl

@[simp] theorem mkNew_attempts (id data : String) (ao : Option Nat) (d n : Nat)
    (wh : Option WebhookConfig) : (Job.mkNew id data ao d n wh).attempts = 0 := rfl

theorem mkNew_maxAttempts_pos (id data : String) (ao : Option Nat) (d n : Nat)
    (wh : Option WebhookConfig) : 0 < (Job.mkNew id data ao d n wh).maxAttempts := by
  simp only [Job.mkNew]
  match ao with
  | none => simp
  | some m =>
    by_cases hm : m = 0
    · simp [hm]
    · simp [hm]
      omega

end Job

/-! ## The backoff computations -/

theorem queue_calculateRetryDelay_decomp (a : Nat) (r : ℚ) :
    Queue.calculateRetryDelay a r =
      ((min (1000 * 2 ^ a) 60000 : ℕ) : ℤ) +
        ⌊r * (1/10) * ((min (1000 * 2 ^ a) 60000 : ℕ) : ℚ)⌋ := by
  have hcast : ((min (1000 * 2 ^ a) 60000 : ℕ) : ℚ) =
      min ((1000:ℚ) * 2 ^ a) 60000 := by push_cast; ring_nf
  simp only [Queue.calculateRetryDelay]
  rw [← hcast]
  rw [show ((min (1000 * 2 ^ a) 60000 : ℕ) : ℚ) =
    (((min (1000 * 2 ^ a) 60000 : ℕ) : ℤ) : ℚ) by push_cast; ring]
  rw [Int.floor_int_add]

/-! ## Characterizations of the queue operations -/

namespace Queue


@[simp] theorem addJob_waiting (s : QState) (j : Job) :
    (addJob s j).waiting =
      if j.status = .delayed then s.waiting else j.id :: s.waiting := by
  by_cases h : j.status = .delayed <;> simp [addJob, h]

@[simp] theorem addJob_active (s : QState) (j : Job) :
    (addJob s j).active = s.active := by
  by_cases h : j.status = .delayed <;> simp [addJob, h]

@[simp] theorem addJob_delayed (s : QState) (j : Job) :
    (addJob s j).delayed =
      if j.status = .delayed then zadd s.delayed j.getScheduledTime j.id
      else s.delayed := by
  by_cases h : j.status = .delayed <;> simp [addJob, h]

@[simp] theorem addJob_jobs (s : QState) (j : Job) :
    (addJob s j).jobs = hset s.jobs j.id j := by
  by_cases h : j.status = .delayed <;> simp [addJob, h]

@[simp] theorem completeJob_waiting (s : QState) (j : Job) (res : Option String)
    (now : Nat) (b : Bool) : (completeJob s j res now b).waiting = s.waiting := by
  cases b <;> simp [completeJob]

@[simp] theorem completeJob_active (s : QState) (j : Job) (res : Option String)
    (now : Nat) (b : Bool) :
    (completeJob s j res now b).active = lremOne s.active j.id := by
  cases b <;> simp [completeJob]

@[simp] theorem completeJob_delayed (s : QState) (j : Job) (res : Option String)
    (now : Nat) (b : Bool) : (completeJob s j res now b).delayed = s.delayed := by
  cases b <;> simp [completeJob]

@[simp] theorem completeJob_jobs (s : QState) (j : Job) (res : Option String)
    (now : Nat) (b : Bool) :
    (completeJob s j res now b).jobs =
      if b then hdel (hset s.jobs j.id (j.markAsCompleted res now)) j.id
      else hset s.jobs j.id (j.markAsCompleted res now) := by
  cases b <;> simp [completeJob]

@[simp] theorem failJob_waiting (s : QState) (j : Job) (err : String) (now : Nat)
    (r : ℚ) (b : Bool) : (failJob s j err now r b).waiting = s.waiting := by
  by_cases h : (j.markAsFailed err now).canRetry <;> cases b
  all_goals simp [failJob, h]
  all_goals simp [Job.canRetry]

@[simp] theorem failJob_active (s : QState) (j : Job) (err : String) (now : Nat)
    (r : ℚ) (b : Bool) :
    (failJob s j err now r b).active = lremOne s.active j.id := by
  by_cases h : (j.markAsFailed err now).canRetry <;> cases b
  all_goals simp [failJob, h]
  all_goals simp [Job.canRetry]

@[simp] theorem failJob_delayed (s : QState) (j : Job) (err : String) (now : Nat)
    (r : ℚ) (b : Bool) :
    (failJob s j err now r b).delayed =
      if (j.markAsFailed err now).canRetry then
        zadd s.delayed (now + (calculateRetryDelay (j.attempts + 1) r).toNat) j.id
      else s.delayed := by
  by_cases h : (j.markAsFailed err now).canRetry <;> cases b
  all_goals simp [failJob, h]
  all_goals simp [Job.canRetry]

@[simp] theorem failJob_jobs (s : QState) (j : Job) (err : String) (now : Nat)
    (r : ℚ) (b : Bool) :
    (failJob s j err now r b).jobs =
      (if b then
        hdel (hset s.jobs j.id
          (if (j.markAsFailed err now).canRetry then
            { j.markAsFailed err now with status := JobStatus.delayed }
          else j.markAsFailed err now)) j.id
      else hset s.jobs j.id
        (if (j.markAsFailed err now).canRetry then
          { j.markAsFailed err now with status := JobStatus.delayed }
        else j.markAsFailed err now)) := by
  by_cases h : (j.markAsFailed err now).canRetry <;> cases b
  all_goals simp [failJob, h]
  all_goals simp [Job.canRetry]

end Queue

/-! ## Invariant preservation -/


theorem inv_remove (w : WState) (id : String) (hw : Inv w) :
    Inv ⟨(Queue.removeJob w.q id).1, w.leased⟩ := by
  obtain ⟨hnd, hlw, hld, hln, hki, hrl, hpl, hll⟩ := hw
  simp only [Queue.removeJob]
  constructor
  case nodup =>
    refine List.Nodup.sublist ?_ hnd
    refine List.Sublist.append (List.Sublist.append ?_ ?_) ?_
    · exact List.filter_sublist _
    · exact List.filter_sublist _
    · rw [delayedIds_zrem]
      exact List.filter_sublist _
  case leased_not_waiting =>
    intro j hj hmem
    exact hlw j hj (List.mem_of_mem_filter hmem)
  case leased_not_delayed =>
    intro j hj hmem
    rw [delayedIds_zrem] at hmem
    exact hld j hj (List.mem_of_mem_filter hmem)
  case leased_ids_nodup => exact hln
  case key_id =>
    intro p hp
    exact hki p (mem_hdel _ _ _ hp).1
  case rec_le =>
    intro p hp
    exact hrl p (mem_hdel _ _ _ hp).1
  case pending_lt =>
    intro p hp hmem
    refine hpl p (mem_hdel _ _ _ hp).1 ?_
    rcases hmem with hmem | hmem
    · exact Or.inl (List.mem_of_mem_filter hmem)
    · rw [delayedIds_zrem] at hmem
      exact Or.inr (List.mem_of_mem_filter hmem)
  case leased_lt => exact hll

theorem inv_complete (w : WState) (j : Job) (res : Option String) (now : Nat)
    (roc : Bool) (hw : Inv w) (hj : j ∈ w.leased) :
    Inv ⟨Queue.completeJob w.q j res now roc, w.leased.erase j⟩ := by
  obtain ⟨hnd, hlw, hld, hln, hki, hrl, hpl, hll⟩ := hw
  have herase : ∀ x ∈ w.leased.erase j, x ∈ w.leased :=
    fun x hx => List.mem_of_mem_erase hx
  have hjobs : ∀ p ∈ (Queue.completeJob w.q j res now roc).jobs,
      p = (j.id, j.markAsCompleted res now) ∨ (p ∈ w.q.jobs ∧ p.1 ≠ j.id) := by
    intro p hp
    rw [Queue.completeJob_jobs] at hp
    cases roc with
    | true =>
      simp only [if_pos rfl] at hp
      have h1 := mem_hdel _ _ _ hp
      have h2 := mem_hset _ _ _ _ h1.1
      rcases h2 with h2 | h2
      · exact Or.inl h2
      · exact Or.inr h2
    | false =>
      rw [if_neg (by simp)] at hp
      exact mem_hset _ _ _ _ hp
  constructor
  case nodup =>
    rw [Queue.completeJob_waiting, Queue.completeJob_active,
      Queue.completeJob_delayed]
    refine List.Nodup.sublist ?_ hnd
    exact List.Sublist.append
      (List.Sublist.append (List.Sublist.refl _) (lremOne_sublist _ _))
      (List.Sublist.refl _)
  case leased_not_waiting =>
    intro x hx
    rw [Queue.completeJob_waiting]
    exact hlw x (herase x hx)
  case leased_not_delayed =>
    intro x hx
    rw [Queue.completeJob_delayed]
    exact hld x (herase x hx)
  case leased_ids_nodup =>
    exact ((w.leased.erase_sublist j).map Job.id).nodup hln
  case key_id =>
    intro p hp
    rcases hjobs p hp with rfl | ⟨hp', _⟩
    · simp
    · exact hki p hp'
  case rec_le =>
    intro p hp
    rcases hjobs p hp with rfl | ⟨hp', _⟩
    · simpa using Nat.le_of_lt (hll j hj)
    · exact hrl p hp'
  case pending_lt =>
    intro p hp hmem
    rw [Queue.completeJob_waiting, Queue.completeJob_delayed] at hmem
    rcases hjobs p hp with rfl | ⟨hp', _⟩
    · exfalso
      rcases hmem with hmem | hmem
      · exact hlw j hj (by simpa using hmem)
      · exact hld j hj (by simpa using hmem)
    · exact hpl p hp' hmem
  case leased_lt =>
    intro x hx
    exact hll x (herase x hx)

theorem leased_erase_id_ne (leased : List Job)
    (hln : (leased.map Job.id).Nodup) (j x : Job) (hj : j ∈ leased)
    (hx : x ∈ leased.erase j) : x.id ≠ j.id := by
  have hnd : leased.Nodup := hln.of_map
  have hxj : x ≠ j ∧ x ∈ leased := (List.Nodup.mem_erase_iff hnd).mp hx
  intro hid
  exact hxj.1 (List.inj_on_of_nodup_map hln hxj.2 hj hid)

theorem inv_fail (w : WState) (j : Job) (err : String) (now : Nat) (r : ℚ)
    (rof : Bool) (hw : Inv w) (hj : j ∈ w.leased) :
    Inv ⟨Queue.failJob w.q j err now r rof, w.leased.erase j⟩ := by
  obtain ⟨hnd, hlw, hld, hln, hki, hrl, hpl, hll⟩ := hw
  have herase : ∀ x ∈ w.leased.erase j, x ∈ w.leased :=
    fun x hx => List.mem_of_mem_erase hx
  have hndparts := hnd
  rw [List.nodup_append, List.nodup_append] at hndparts
  obtain ⟨⟨hW, hA, hWA⟩, hD, hWAD⟩ := hndparts
  have hjW : j.id ∉ w.q.waiting := hlw j hj
  have hjD : j.id ∉ delayedIds w.q.delayed := hld j hj
  have hjlrem : j.id ∉ lremOne w.q.active j.id := not_mem_lremOne _ _ hA
  have hjobs : ∀ p ∈ (Queue.failJob w.q j err now r rof).jobs,
      (p.1 = j.id ∧ (Prod.snd p).id = j.id ∧
        (Prod.snd p).attempts = j.attempts + 1 ∧
        (Prod.snd p).maxAttempts = j.maxAttempts) ∨
      (p ∈ w.q.jobs ∧ p.1 ≠ j.id) := by
    intro p hp
    rw [Queue.failJob_jobs] at hp
    have hone : ∀ q ∈ hset w.q.jobs j.id
        (if (j.markAsFailed err now).canRetry then
          { j.markAsFailed err now with status := JobStatus.delayed }
        else j.markAsFailed err now),
        (q.1 = j.id ∧ (Prod.snd q).id = j.id ∧
          (Prod.snd q).attempts = j.attempts + 1 ∧
          (Prod.snd q).maxAttempts = j.maxAttempts) ∨
        (q ∈ w.q.jobs ∧ q.1 ≠ j.id) := by
      intro q hq
      rcases mem_hset _ _ _ _ hq with rfl | hq'
      · left
        by_cases hcr : (j.markAsFailed err now).canRetry <;> simp [hcr]
      · exact Or.inr hq'
    cases rof with
    | true =>
      rw [if_pos rfl] at hp
      exact hone p (mem_hdel _ _ _ hp).1
    | false =>
      rw [if_neg (by simp)] at hp
      exact hone p hp
  have hlt : (j.markAsFailed err now).canRetry = true →
      j.attempts + 1 < j.maxAttempts := by
    intro h
    have := Job.canRetry_markAsFailed j err now
    rw [h] at this
    exact of_decide_eq_true this.symm
  have hdelayed : (Queue.failJob w.q j err now r rof).delayed =
      if (j.markAsFailed err now).canRetry then
        zadd w.q.delayed
          (now + (Queue.calculateRetryDelay (j.attempts + 1) r).toNat) j.id
      else w.q.delayed := Queue.failJob_delayed _ _ _ _ _ _
  have hdid : delayedIds (Queue.failJob w.q j err now r rof).delayed =
      if (j.markAsFailed err now).canRetry then
        delayedIds w.q.delayed ++ [j.id]
      else delayedIds w.q.delayed := by
    rw [hdelayed]
    by_cases hcr : (j.markAsFailed err now).canRetry
    · rw [if_pos hcr, if_pos hcr, delayedIds_zadd_of_not_mem _ _ _ hjD]
    · rw [if_neg hcr, if_neg hcr]
  constructor
  case nodup =>
    rw [Queue.failJob_waiting, Queue.failJob_active, hdid]
    by_cases hcr : (j.markAsFailed err now).canRetry
    · rw [if_pos hcr]
      rw [List.nodup_append, List.nodup_append]
      refine ⟨⟨hW, (lremOne_sublist _ _).nodup hA, ?_⟩, ?_, ?_⟩
      · intro x hxW hxA
        exact hWA hxW ((lremOne_sublist _ _).mem hxA)
      · rw [List.nodup_append]
        refine ⟨hD, by simp, ?_⟩
        intro x hxD hxj
        rw [List.mem_singleton] at hxj
        subst hxj
        exact hjD hxD
      · intro x hx hx'
        rw [List.mem_append] at hx
        rw [List.mem_append, List.mem_singleton] at hx'
        rcases hx' with hxD | rfl
        · rcases hx with hxW | hxA
          · exact hWAD (List.mem_append.mpr (Or.inl hxW)) hxD
          · exact hWAD (List.mem_append.mpr (Or.inr ((lremOne_sublist _ _).mem hxA))) hxD
        · rcases hx with hxW | hxA
          · exact hjW hxW
          · exact hjlrem hxA
    · rw [if_neg hcr]
      refine List.Nodup.sublist ?_ hnd
      exact List.Sublist.append
        (List.Sublist.append (List.Sublist.refl _) (lremOne_sublist _ _))
        (List.Sublist.refl _)
  case leased_not_waiting =>
    intro x hx
    rw [Queue.failJob_waiting]
    exact hlw x (herase x hx)
  case leased_not_delayed =>
    intro x hx
    rw [hdid]
    by_cases hcr : (j.markAsFailed err now).canRetry
    · rw [if_pos hcr]
      rw [List.mem_append, List.mem_singleton]
      push_neg
      exact ⟨hld x (herase x hx), leased_erase_id_ne _ hln j x hj hx⟩
    · rw [if_neg hcr]
      exact hld x (herase x hx)
  case leased_ids_nodup =>
    exact ((w.leased.erase_sublist j).map Job.id).nodup hln
  case key_id =>
    intro p hp
    rcases hjobs p hp with ⟨h1, h2, _, _⟩ | ⟨hp', _⟩
    · rw [h2, h1]
    · exact hki p hp'
  case rec_le =>
    intro p hp
    rcases hjobs p hp with ⟨_, _, h3, h4⟩ | ⟨hp', _⟩
    · rw [h3, h4]
      exact hll j hj
    · exact hrl p hp'
  case pending_lt =>
    intro p hp hmem
    rw [Queue.failJob_waiting, hdid] at hmem
    rcases hjobs p hp with ⟨h1, _, h3, h4⟩ | ⟨hp', hne⟩
    · rw [h3, h4]
      by_cases hcr : (j.markAsFailed err now).canRetry
      · exact hlt hcr
      · exfalso
        rw [if_neg hcr] at hmem
        rw [h1] at hmem
        rcases hmem with hmem | hmem
        · exact hjW hmem
        · exact hjD hmem
    · refine hpl p hp' ?_
      by_cases hcr : (j.markAsFailed err now).canRetry
      · rw [if_pos hcr] at hmem
        rcases hmem with hmem | hmem
        · exact Or.inl hmem
        · rw [List.mem_append, List.mem_singleton] at hmem
          rcases hmem with hmem | hmem
          · exact Or.inr hmem
          · exact absurd hmem hne
      · rw [if_neg hcr] at hmem
        exact hmem
  case leased_lt =>
    intro x hx
    exact hll x (herase x hx)

theorem inv_add (w : WState) (id data : String) (ao : Option Nat)
    (delay now : Nat) (wh : Option WebhookConfig)
    (hfresh : id ∉ w.q.waiting ∧ id ∉ w.q.active ∧
      id ∉ delayedIds w.q.delayed ∧ ∀ jl ∈ w.leased, jl.id ≠ id)
    (hw : Inv w) :
    Inv ⟨Queue.addJob w.q (Job.mkNew id data ao delay now wh), w.leased⟩ := by
  obtain ⟨hnd, hlw, hld, hln, hki, hrl, hpl, hll⟩ := hw
  obtain ⟨hfW, hfA, hfD, hfL⟩ := hfresh
  have hndparts := hnd
  rw [List.nodup_append, List.nodup_append] at hndparts
  obtain ⟨⟨hW, hA, hWA⟩, hD, hWAD⟩ := hndparts
  set j := Job.mkNew id data ao delay now wh with hjdef
  have hjid : j.id = id := rfl
  have hjobs : ∀ p ∈ (Queue.addJob w.q j).jobs,
      p = (id, j) ∨ (p ∈ w.q.jobs ∧ p.1 ≠ id) := by
    intro p hp
    rw [Queue.addJob_jobs, hjid] at hp
    exact mem_hset _ _ _ _ hp
  have hwaiting : (Queue.addJob w.q j).waiting =
      if j.status = .delayed then w.q.waiting else id :: w.q.waiting := by
    rw [Queue.addJob_waiting, hjid]
  have hdid : delayedIds (Queue.addJob w.q j).delayed =
      if j.status = .delayed then delayedIds w.q.delayed ++ [id]
      else delayedIds w.q.delayed := by
    rw [Queue.addJob_delayed]
    by_cases hs : j.status = .delayed
    · rw [if_pos hs, if_pos hs, hjid, delayedIds_zadd_of_not_mem _ _ _ hfD]
    · rw [if_neg hs, if_neg hs]
  constructor
  case nodup =>
    rw [hwaiting, Queue.addJob_active, hdid]
    by_cases hs : j.status = .delayed
    · rw [if_pos hs, if_pos hs]
      rw [List.nodup_append]
      refine ⟨List.nodup_append.mpr ⟨hW, hA, hWA⟩, ?_, ?_⟩
      · rw [List.nodup_append]
        refine ⟨hD, by simp, ?_⟩
        intro x hxD hxid
        rw [List.mem_singleton] at hxid
        subst hxid
        exact hfD hxD
      · intro x hx hx'
        rw [List.mem_append, List.mem_singleton] at hx'
        rcases hx' with hxD | rfl
        · exact hWAD hx hxD
        · rw [List.mem_append] at hx
          rcases hx with hxW | hxA
          · exact hfW hxW
          · exact hfA hxA
    · rw [if_neg hs, if_neg hs]
      rw [show (id :: w.q.waiting) ++ w.q.active ++ delayedIds w.q.delayed =
        id :: (w.q.waiting ++ w.q.active ++ delayedIds w.q.delayed) by simp]
      rw [List.nodup_cons]
      refine ⟨?_, hnd⟩
      intro hmem
      rw [List.mem_append, List.mem_append] at hmem
      rcases hmem with (hmem | hmem) | hmem
      · exact hfW hmem
      · exact hfA hmem
      · exact hfD hmem
  case leased_not_waiting =>
    intro x hx
    rw [hwaiting]
    by_cases hs : j.status = .delayed
    · rw [if_pos hs]
      exact hlw x hx
    · rw [if_neg hs, List.mem_cons]
      push_neg
      exact ⟨hfL x hx, hlw x hx⟩
  case leased_not_delayed =>
    intro x hx
    rw [hdid]
    by_cases hs : j.status = .delayed
    · rw [if_pos hs, List.mem_append, List.mem_singleton]
      push_neg
      exact ⟨hld x hx, hfL x hx⟩
    · rw [if_neg hs]
      exact hld x hx
  case leased_ids_nodup => exact hln
  case key_id =>
    intro p hp
    rcases hjobs p hp with rfl | ⟨hp', _⟩
    · exact hjid
    · exact hki p hp'
  case rec_le =>
    intro p hp
    rcases hjobs p hp with rfl | ⟨hp', _⟩
    · simp only [hjdef]
      simp [Nat.le_of_lt (Job.mkNew_maxAttempts_pos id data ao delay now wh)]
    · exact hrl p hp'
  case pending_lt =>
    intro p hp _
    rcases hjobs p hp with rfl | ⟨hp', hne⟩
    · simp only [hjdef]
      simpa using Job.mkNew_maxAttempts_pos id data ao delay now wh
    · refine hpl p hp' ?_
      rename_i hmem
      rw [hwaiting, hdid] at hmem
      by_cases hs : j.status = .delayed
      · rw [if_pos hs, if_pos hs] at hmem
        rcases hmem with hmem | hmem
        · exact Or.inl hmem
        · rw [List.mem_append, List.mem_singleton] at hmem
          rcases hmem with hmem | hmem
          · exact Or.inr hmem
          · exact absurd hmem hne
      · rw [if_neg hs, if_neg hs] at hmem
        rcases hmem with hmem | hmem
        · rw [List.mem_cons] at hmem
          rcases hmem with hmem | hmem
          · exact absurd hmem hne
          · exact Or.inl hmem
        · exact Or.inr hmem
  case leased_lt => exact hll

@[simp] theorem promoteOne_active (s : QState) (id : String) :
    (Queue.promoteOne s id).active = s.active := by
  cases h : hget s.jobs id <;> simp [Queue.promoteOne, h]

@[simp] theorem promoteOne_completed (s : QState) (id : String) :
    (Queue.promoteOne s id).completed = s.completed := by
  cases h : hget s.jobs id <;> simp [Queue.promoteOne, h]

@[simp] theorem promoteOne_failed (s : QState) (id : String) :
    (Queue.promoteOne s id).failed = s.failed := by
  cases h : hget s.jobs id <;> simp [Queue.promoteOne, h]

@[simp] theorem promoteOne_stats (s : QState) (id : String) :
    (Queue.promoteOne s id).stats = s.stats := by
  cases h : hget s.jobs id <;> simp [Queue.promoteOne, h]

@[simp] theorem promoteOne_delayed (s : QState) (id : String) :
    (Queue.promoteOne s id).delayed = zrem s.delayed id := by
  cases h : hget s.jobs id <;> simp [Queue.promoteOne, h]

theorem inv_promoteOne (leased : List Job) (s : QState) (id : String)
    (hw : Inv ⟨s, leased⟩) (hid : id ∈ delayedIds s.delayed) :
    Inv ⟨Queue.promoteOne s id, leased⟩ := by
  obtain ⟨hnd, hlw, hld, hln, hki, hrl, hpl, hll⟩ := hw
  simp only at hnd hlw hld hki hrl hpl
  have hndparts := hnd
  rw [List.nodup_append, List.nodup_append] at hndparts
  obtain ⟨⟨hW, hA, hWA⟩, hD, hWAD⟩ := hndparts
  have hidW : id ∉ s.waiting := by
    intro hmem
    exact hWAD (List.mem_append.mpr (Or.inl hmem)) hid
  have hidA : id ∉ s.active := by
    intro hmem
    exact hWAD (List.mem_append.mpr (Or.inr hmem)) hid
  have hzrem : id ∉ delayedIds (zrem s.delayed id) := by
    rw [delayedIds_zrem]
    intro hmem
    exact (by simpa using (List.mem_filter.mp hmem).2 : ¬ id = id) rfl
  cases hg : hget s.jobs id with
  | none =>
    have hpo : Queue.promoteOne s id = { s with delayed := zrem s.delayed id } := by
      simp [Queue.promoteOne, hg]
    rw [hpo]
    constructor
    case nodup =>
      simp only
      refine List.Nodup.sublist ?_ hnd
      refine List.Sublist.append (List.Sublist.refl _) ?_
      rw [delayedIds_zrem]
      exact List.filter_sublist _
    case leased_not_waiting => exact hlw
    case leased_not_delayed =>
      intro x hx hmem
      rw [delayedIds_zrem] at hmem
      exact hld x hx (List.mem_of_mem_filter hmem)
    case leased_ids_nodup => exact hln
    case key_id => exact hki
    case rec_le => exact hrl
    case pending_lt =>
      intro p hp hmem
      refine hpl p hp ?_
      rcases hmem with hmem | hmem
      · exact Or.inl hmem
      · rw [delayedIds_zrem] at hmem
        exact Or.inr (List.mem_of_mem_filter hmem)
    case leased_lt => exact hll
  | some rec =>
    have hrecmem : (id, rec) ∈ s.jobs := mem_of_hget_eq_some _ _ _ hg
    have hrecid : rec.id = id := hki (id, rec) hrecmem
    have hreclt : rec.attempts < rec.maxAttempts :=
      hpl (id, rec) hrecmem (Or.inr hid)
    have hpo : Queue.promoteOne s id =
        { s with delayed := zrem s.delayed id,
                 jobs := hset s.jobs id { rec with status := JobStatus.waiting },
                 waiting := id :: s.waiting } := by
      simp [Queue.promoteOne, hg]
    rw [hpo]
    have hjobs : ∀ p ∈ hset s.jobs id { rec with status := JobStatus.waiting },
        p = (id, { rec with status := JobStatus.waiting }) ∨
        (p ∈ s.jobs ∧ p.1 ≠ id) := fun p hp => mem_hset _ _ _ _ hp
    constructor
    case nodup =>
      simp only
      rw [show (id :: s.waiting) ++ s.active ++ delayedIds (zrem s.delayed id) =
        id :: (s.waiting ++ s.active ++ delayedIds (zrem s.delayed id)) by simp]
      rw [List.nodup_cons]
      constructor
      · intro hmem
        rw [List.mem_append, List.mem_append] at hmem
        rcases hmem with (hmem | hmem) | hmem
        · exact hidW hmem
        · exact hidA hmem
        · exact hzrem hmem
      · refine List.Nodup.sublist ?_ hnd
        refine List.Sublist.append (List.Sublist.refl _) ?_
        rw [delayedIds_zrem]
        exact List.filter_sublist _
    case leased_not_waiting =>
      intro x hx
      simp only [List.mem_cons]
      push_neg
      constructor
      · intro hxid
        exact hld x hx (hxid ▸ hid)
      · exact hlw x hx
    case leased_not_delayed =>
      intro x hx hmem
      rw [delayedIds_zrem] at hmem
      exact hld x hx (List.mem_of_mem_filter hmem)
    case leased_ids_nodup => exact hln
    case key_id =>
      intro p hp
      rcases hjobs p hp with rfl | ⟨hp', _⟩
      · simpa using hrecid
      · exact hki p hp'
    case rec_le =>
      intro p hp
      rcases hjobs p hp with rfl | ⟨hp', _⟩
      · simpa using Nat.le_of_lt hreclt
      · exact hrl p hp'
    case pending_lt =>
      intro p hp hmem
      rcases hjobs p hp with rfl | ⟨hp', hne⟩
      · simpa using hreclt
      · refine hpl p hp' ?_
        rcases hmem with hmem | hmem
        · rw [List.mem_cons] at hmem
          rcases hmem with hmem | hmem
          · exact absurd hmem hne
          · exact Or.inl hmem
        · rw [delayedIds_zrem] at hmem
          exact Or.inr (List.mem_of_mem_filter hmem)
    case leased_lt => exact hll

theorem inv_promote_fold (leased : List Job) (pending : List String) (s : QState)
    (hw : Inv ⟨s, leased⟩) (hnd : pending.Nodup)
    (hmem : ∀ x ∈ pending, x ∈ delayedIds s.delayed) :
    Inv ⟨pending.foldl Queue.promoteOne s, leased⟩ := by
  induction pending generalizing s with
  | nil => simpa using hw
  | cons id rest ih =>
    rw [List.foldl_cons]
    have hrest : ∀ x ∈ rest, x ∈ delayedIds (Queue.promoteOne s id).delayed := by
      intro x hx
      rw [promoteOne_delayed, delayedIds_zrem, List.mem_filter]
      refine ⟨hmem x (List.mem_cons_of_mem _ hx), ?_⟩
      have hne : x ≠ id := by
        intro h
        exact (List.nodup_cons.mp hnd).1 (h ▸ hx)
      simpa using hne
    exact ih (Queue.promoteOne s id)
      (inv_promoteOne leased s id hw (hmem id (List.mem_cons_self _ _)))
      (List.nodup_cons.mp hnd).2 hrest

theorem inv_promote (w : WState) (now : Nat) (hw : Inv w) :
    Inv ⟨Queue.processDelayedJobs w.q now, w.leased⟩ := by
  have hD : (delayedIds w.q.delayed).Nodup := by
    have := hw.nodup
    rw [List.nodup_append] at this
    exact this.2.1
  refine inv_promote_fold w.leased _ w.q ?_ ?_ ?_
  · cases w
    exact hw
  · exact zrangebyscore_ids_nodup _ _ hD
  · intro x hx
    rw [List.mem_map] at hx
    obtain ⟨e, he, rfl⟩ := hx
    have := (mem_zrangebyscore _ _ _ he).1
    rw [mem_delayedIds]
    exact ⟨e.2, by simpa using this⟩


theorem getNextJob_char_empty (s : QState) (now : Nat)
    (hL : (Queue.processDelayedJobs s now).waiting.getLast? = none) :
    Queue.getNextJob s now = (Queue.processDelayedJobs s now, none) := by
  simp only [Queue.getNextJob]
  rw [hL]

theorem getNextJob_char_missing (s : QState) (now : Nat) (pid : String)
    (hL : (Queue.processDelayedJobs s now).waiting.getLast? = some pid)
    (hg : hget (Queue.processDelayedJobs s now).jobs pid = none) :
    Queue.getNextJob s now =
      ({ Queue.processDelayedJobs s now with
          waiting := (Queue.processDelayedJobs s now).waiting.dropLast }, none) := by
  simp only [Queue.getNextJob]
  rw [hL]
  dsimp only
  rw [hg]

theorem getNextJob_char_claim (s : QState) (now : Nat) (pid : String) (rec : Job)
    (hL : (Queue.processDelayedJobs s now).waiting.getLast? = some pid)
    (hg : hget (Queue.processDelayedJobs s now).jobs pid = some rec) :
    Queue.getNextJob s now =
      ({ Queue.processDelayedJobs s now with
          waiting := (Queue.processDelayedJobs s now).waiting.dropLast,
          active := (rec.markAsActive now).id ::
            (Queue.processDelayedJobs s now).active,
          jobs := hset (Queue.processDelayedJobs s now).jobs
            (rec.markAsActive now).id (rec.markAsActive now) },
       some (rec.markAsActive now)) := by
  simp only [Queue.getNextJob]
  rw [hL]
  dsimp only
  rw [hg]

theorem nextW_char_none (w : WState) (now : Nat) (q' : QState)
    (h : Queue.getNextJob w.q now = (q', none)) :
    nextW w now = ⟨q', w.leased⟩ := by
  unfold nextW
  rw [h]

theorem nextW_char_some (w : WState) (now : Nat) (q' : QState) (j : Job)
    (h : Queue.getNextJob w.q now = (q', some j)) :
    nextW w now = ⟨q', j :: w.leased⟩ := by
  unfold nextW
  rw [h]

theorem inv_next (w : WState) (now : Nat) (hw : Inv w) : Inv (nextW w now) := by
  have h1 : Inv ⟨Queue.processDelayedJobs w.q now, w.leased⟩ :=
    inv_promote w now hw
  obtain ⟨hnd, hlw, hld, hln, hki, hrl, hpl, hll⟩ := h1
  simp only at hnd hlw hld hki hrl hpl
  cases hL : (Queue.processDelayedJobs w.q now).waiting.getLast? with
  | none =>
    rw [nextW_char_none w now _ (getNextJob_char_empty w.q now hL)]
    exact ⟨hnd, hlw, hld, hln, hki, hrl, hpl, hll⟩
  | some pid =>
    have hndparts := hnd
    rw [List.nodup_append, List.nodup_append] at hndparts
    obtain ⟨⟨hW, hA, hWA⟩, hD, hWAD⟩ := hndparts
    have hdecomp : (Queue.processDelayedJobs w.q now).waiting =
        (Queue.processDelayedJobs w.q now).waiting.dropLast ++ [pid] :=
      eq_dropLast_append_of_getLast? _ _ hL
    have hpidW : pid ∈ (Queue.processDelayedJobs w.q now).waiting := by
      rw [hdecomp]
      simp
    have hpidDL : pid ∉ (Queue.processDelayedJobs w.q now).waiting.dropLast := by
      have h2 := hW
      rw [hdecomp, List.nodup_append] at h2
      intro hmem
      exact h2.2.2 hmem (by simp)
    have hpidA : pid ∉ (Queue.processDelayedJobs w.q now).active :=
      fun hmem => hWA hpidW hmem
    have hpidD : pid ∉ delayedIds (Queue.processDelayedJobs w.q now).delayed :=
      fun hmem => hWAD (List.mem_append.mpr (Or.inl hpidW)) hmem
    cases hg : hget (Queue.processDelayedJobs w.q now).jobs pid with
    | none =>
      rw [nextW_char_none w now _ (getNextJob_char_missing w.q now pid hL hg)]
      constructor
      case nodup =>
        refine List.Nodup.sublist ?_ hnd
        exact List.Sublist.append
          (List.Sublist.append (List.dropLast_sublist _) (List.Sublist.refl _))
          (List.Sublist.refl _)
      case leased_not_waiting =>
        intro x hx hmem
        exact hlw x hx ((List.dropLast_sublist _).mem hmem)
      case leased_not_delayed => exact hld
      case leased_ids_nodup => exact hln
      case key_id => exact hki
      case rec_le => exact hrl
      case pending_lt =>
        intro p hp hmem
        refine hpl p hp ?_
        rcases hmem with hmem | hmem
        · exact Or.inl ((List.dropLast_sublist _).mem hmem)
        · exact Or.inr hmem
      case leased_lt => exact hll
    | some rec =>
      have hrecmem : (pid, rec) ∈ (Queue.processDelayedJobs w.q now).jobs :=
        mem_of_hget_eq_some _ _ _ hg
      have hrecid : rec.id = pid := hki (pid, rec) hrecmem
      have hreclt : rec.attempts < rec.maxAttempts :=
        hpl (pid, rec) hrecmem (Or.inl hpidW)
      rw [nextW_char_some w now _ _ (getNextJob_char_claim w.q now pid rec hL hg)]
      have hjobs2 : ∀ p ∈ hset (Queue.processDelayedJobs w.q now).jobs
          (rec.markAsActive now).id (rec.markAsActive now),
          p = ((rec.markAsActive now).id, rec.markAsActive now) ∨
          (p ∈ (Queue.processDelayedJobs w.q now).jobs ∧
            p.1 ≠ (rec.markAsActive now).id) :=
        fun p hp => mem_hset _ _ _ _ hp
      constructor
      case nodup =>
        simp only [Job.markAsActive_id, hrecid]
        rw [List.nodup_append]
        refine ⟨?_, hD, ?_⟩
        · rw [List.nodup_append]
          refine ⟨(List.dropLast_sublist _).nodup hW, ?_, ?_⟩
          · rw [List.nodup_cons]
            exact ⟨hpidA, hA⟩
          · intro x hx hx'
            rw [List.mem_cons] at hx'
            rcases hx' with rfl | hx'
            · exact hpidDL hx
            · exact hWA ((List.dropLast_sublist _).mem hx) hx'
        · intro x hx hxD
          rw [List.mem_append, List.mem_cons] at hx
          rcases hx with hx | rfl | hx
          · exact hWAD
              (List.mem_append.mpr (Or.inl ((List.dropLast_sublist _).mem hx))) hxD
          · exact hpidD hxD
          · exact hWAD (List.mem_append.mpr (Or.inr hx)) hxD
      case leased_not_waiting =>
        intro x hx
        rw [List.mem_cons] at hx
        rcases hx with rfl | hx
        · simpa [hrecid] using hpidDL
        · intro hmem
          exact hlw x hx ((List.dropLast_sublist _).mem hmem)
      case leased_not_delayed =>
        intro x hx
        rw [List.mem_cons] at hx
        rcases hx with rfl | hx
        · simpa [hrecid] using hpidD
        · exact hld x hx
      case leased_ids_nodup =>
        rw [List.map_cons, List.nodup_cons]
        refine ⟨?_, hln⟩
        simp only [Job.markAsActive_id, hrecid]
        intro hmem
        rw [List.mem_map] at hmem
        obtain ⟨x, hx, hxid⟩ := hmem
        exact hlw x hx (hxid ▸ hpidW)
      case key_id =>
        intro p hp
        rcases hjobs2 p hp with rfl | ⟨hp', _⟩
        · rfl
        · exact hki p hp'
      case rec_le =>
        intro p hp
        rcases hjobs2 p hp with rfl | ⟨hp', _⟩
        · simpa using Nat.le_of_lt hreclt
        · exact hrl p hp'
      case pending_lt =>
        intro p hp hmem
        rcases hjobs2 p hp with rfl | ⟨hp', hne⟩
        · exfalso
          simp only [Job.markAsActive_id, hrecid] at hmem
          rcases hmem with hmem | hmem
          · exact hpidDL hmem
          · exact hpidD hmem
        · refine hpl p hp' ?_
          rcases hmem with hmem | hmem
          · exact Or.inl ((List.dropLast_sublist _).mem hmem)
          · exact Or.inr hmem
      case leased_lt =>
        intro x hx
        rw [List.mem_cons] at hx
        rcases hx with rfl | hx
        · simpa using hreclt
        · exact hll x hx

theorem inv_init : Inv ⟨{}, []⟩ := by
  constructor <;> simp [delayedIds]

theorem inv_step (opts : EffectiveOptions) (w w' : WState)
    (hs : Step opts w w') (hw : Inv w) : Inv w' := by
  cases hs with
  | add id data ao delay now wh hfresh =>
    exact inv_add w id data ao delay now wh hfresh hw
  | next now => exact inv_next w now hw
  | complete j res now hj => exact inv_complete w j res now _ hw hj
  | fail j err now r hj hr0 hr1 => exact inv_fail w j err now r _ hw hj
  | promote now => exact inv_promote w now hw
  | remove id => exact inv_remove w id hw

theorem inv_of_reachable (opts : EffectiveOptions) (w : WState)
    (hw : Reachable opts w) : Inv w := by
  induction hw with
  | init => exact inv_init
  | step w w' hw hs ih => exact inv_step opts w w' hs ih

theorem stepAvoiding_toStep (opts : EffectiveOptions) (bad : String)
    (w w' : WState) (h : StepAvoiding opts bad w w') : Step opts w w' := by
  cases h with
  | add id data ao delay now wh hfresh hbad =>
    exact Step.add w id data ao delay now wh hfresh
  | next now => exact Step.next w now
  | complete j res now hj => exact Step.complete w j res now hj
  | fail j err now r hj hr0 hr1 hbad => exact Step.fail w j err now r hj hr0 hr1
  | promote now => exact Step.promote w now
  | remove id => exact Step.remove w id

theorem absent_promote_fold (bad : String) (pending : List String) (s : QState)
    (ha : bad ∉ s.waiting ∧ bad ∉ delayedIds s.delayed)
    (hnd : pending.Nodup)
    (hmem : ∀ x ∈ pending, x ∈ delayedIds s.delayed) :
    bad ∉ (pending.foldl Queue.promoteOne s).waiting ∧
      bad ∉ delayedIds (pending.foldl Queue.promoteOne s).delayed := by
  induction pending generalizing s with
  | nil => simpa using ha
  | cons id rest ih =>
    rw [List.foldl_cons]
    have hidne : id ≠ bad := by
      intro h
      exact ha.2 (h ▸ hmem id (List.mem_cons_self _ _))
    have hstep : bad ∉ (Queue.promoteOne s id).waiting ∧
        bad ∉ delayedIds (Queue.promoteOne s id).delayed := by
      constructor
      · cases hg : hget s.jobs id with
        | none =>
          rw [show Queue.promoteOne s id =
            { s with delayed := zrem s.delayed id } by
              simp [Queue.promoteOne, hg]]
          exact ha.1
        | some rec =>
          rw [show Queue.promoteOne s id =
            { s with delayed := zrem s.delayed id,
                     jobs := hset s.jobs id { rec with status := JobStatus.waiting },
                     waiting := id :: s.waiting } by
              simp [Queue.promoteOne, hg]]
          simp only [List.mem_cons]
          push_neg
          exact ⟨Ne.symm hidne, ha.1⟩
      · rw [promoteOne_delayed, delayedIds_zrem]
        intro hmem2
        exact ha.2 (List.mem_of_mem_filter hmem2)
    have hrest : ∀ x ∈ rest, x ∈ delayedIds (Queue.promoteOne s id).delayed := by
      intro x hx
      rw [promoteOne_delayed, delayedIds_zrem, List.mem_filter]
      refine ⟨hmem x (List.mem_cons_of_mem _ hx), ?_⟩
      have hne : x ≠ id := by
        intro h
        exact (List.nodup_cons.mp hnd).1 (h ▸ hx)
      simpa using hne
    exact ih (Queue.promoteOne s id) hstep (List.nodup_cons.mp hnd).2 hrest

theorem mem_delayedIds_zadd (d : List (String × Nat)) (sc : Nat) (id x : String)
    (hx : x ∈ delayedIds (zadd d sc id)) : x ∈ delayedIds d ∨ x = id := by
  by_cases h : id ∈ delayedIds d
  · rw [delayedIds_zadd_of_mem _ _ _ h] at hx
    exact Or.inl hx
  · rw [delayedIds_zadd_of_not_mem _ _ _ h, List.mem_append,
      List.mem_singleton] at hx
    exact hx

theorem absent_processDelayedJobs (bad : String) (s : QState) (now : Nat)
    (ha : bad ∉ s.waiting ∧ bad ∉ delayedIds s.delayed)
    (hD : (delayedIds s.delayed).Nodup) :
    bad ∉ (Queue.processDelayedJobs s now).waiting ∧
      bad ∉ delayedIds (Queue.processDelayedJobs s now).delayed := by
  refine absent_promote_fold bad _ s ha (zrangebyscore_ids_nodup _ _ hD) ?_
  intro x hx
  rw [List.mem_map] at hx
  obtain ⟨e, he, rfl⟩ := hx
  have := (mem_zrangebyscore _ _ _ he).1
  rw [mem_delayedIds]
  exact ⟨e.2, by simpa using this⟩

theorem absent_step (opts : EffectiveOptions) (bad : String) (w w' : WState)
    (hs : StepAvoiding opts bad w w') (hw : Inv w)
    (ha : bad ∉ w.q.waiting ∧ bad ∉ delayedIds w.q.delayed) :
    bad ∉ w'.q.waiting ∧ bad ∉ delayedIds w'.q.delayed := by
  have hD : (delayedIds w.q.delayed).Nodup := by
    have h2 := hw.nodup
    rw [List.nodup_append] at h2
    exact h2.2.1
  cases hs with
  | add id data ao delay now wh hfresh hbad =>
    constructor
    · rw [Queue.addJob_waiting]
      by_cases hst : (Job.mkNew id data ao delay now wh).status = .delayed
      · rw [if_pos hst]
        exact ha.1
      · rw [if_neg hst]
        simp only [Job.mkNew_id, List.mem_cons]
        push_neg
        exact ⟨Ne.symm hbad, ha.1⟩
    · rw [Queue.addJob_delayed]
      by_cases hst : (Job.mkNew id data ao delay now wh).status = .delayed
      · rw [if_pos hst]
        intro hmem
        rcases mem_delayedIds_zadd _ _ _ _ hmem with hmem | hmem
        · exact ha.2 hmem
        · rw [Job.mkNew_id] at hmem
          exact hbad hmem.symm
      · rw [if_neg hst]
        exact ha.2
  | next now =>
    have h1 := absent_processDelayedJobs bad w.q now ha hD
    cases hL : (Queue.processDelayedJobs w.q now).waiting.getLast? with
    | none =>
      rw [nextW_char_none w now _ (getNextJob_char_empty w.q now hL)]
      exact h1
    | some pid =>
      cases hg : hget (Queue.processDelayedJobs w.q now).jobs pid with
      | none =>
        rw [nextW_char_none w now _ (getNextJob_char_missing w.q now pid hL hg)]
        exact ⟨fun hm => h1.1 ((List.dropLast_sublist _).mem hm), h1.2⟩
      | some rec =>
        rw [nextW_char_some w now _ _ (getNextJob_char_claim w.q now pid rec hL hg)]
        exact ⟨fun hm => h1.1 ((List.dropLast_sublist _).mem hm), h1.2⟩
  | complete j res now hj =>
    rw [Queue.completeJob_waiting, Queue.completeJob_delayed]
    exact ha
  | fail j err now r hj hr0 hr1 hbad =>
    constructor
    · rw [Queue.failJob_waiting]
      exact ha.1
    · rw [Queue.failJob_delayed]
      by_cases hcr : (j.markAsFailed err now).canRetry
      · rw [if_pos hcr]
        intro hmem
        rcases mem_delayedIds_zadd _ _ _ _ hmem with hmem | hmem
        · exact ha.2 hmem
        · exact hbad hmem.symm
      · rw [if_neg hcr]
        exact ha.2
  | promote now =>
    exact absent_processDelayedJobs bad w.q now ha hD
  | remove id =>
    simp only [Queue.removeJob]
    constructor
    · intro hmem
      exact ha.1 (List.mem_of_mem_filter hmem)
    · rw [delayedIds_zrem]
      intro hmem
      exact ha.2 (List.mem_of_mem_filter hmem)

theorem inv_absent_reachAvoiding (opts : EffectiveOptions) (bad : String)
    (w w' : WState) (h : ReachAvoiding opts bad w w') (hw : Inv w)
    (ha : bad ∉ w.q.waiting ∧ bad ∉ delayedIds w.q.delayed) :
    Inv w' ∧ (bad ∉ w'.q.waiting ∧ bad ∉ delayedIds w'.q.delayed) := by
  induction h with
  | refl => exact ⟨hw, ha⟩
  | step w' w'' h hs ih =>
    obtain ⟨hI, hA⟩ := ih
    exact ⟨inv_step opts _ _ (stepAvoiding_toStep opts bad _ _ hs) hI,
      absent_step opts bad _ _ hs hI hA⟩

theorem getNextJob_ne_of_absent (w : WState) (now : Nat) (bad : String)
    (hw : Inv w) (ha : bad ∉ w.q.waiting ∧ bad ∉ delayedIds w.q.delayed) :
    ∀ j : Job, (Queue.getNextJob w.q now).2 = some j → j.id ≠ bad := by
  have hD : (delayedIds w.q.delayed).Nodup := by
    have h2 := hw.nodup
    rw [List.nodup_append] at h2
    exact h2.2.1
  have h1 := absent_processDelayedJobs bad w.q now ha hD
  have hI1 : Inv ⟨Queue.processDelayedJobs w.q now, w.leased⟩ :=
    inv_promote w now hw
  intro j hj
  cases hL : (Queue.processDelayedJobs w.q now).waiting.getLast? with
  | none =>
    rw [getNextJob_char_empty w.q now hL] at hj
    simp at hj
  | some pid =>
    cases hg : hget (Queue.processDelayedJobs w.q now).jobs pid with
    | none =>
      rw [getNextJob_char_missing w.q now pid hL hg] at hj
      simp at hj
    | some rec =>
      rw [getNextJob_char_claim w.q now pid rec hL hg] at hj
      have hrecid : rec.id = pid :=
        hI1.key_id (pid, rec) (mem_of_hget_eq_some _ _ _ hg)
      have hpidW : pid ∈ (Queue.processDelayedJobs w.q now).waiting := by
        rw [eq_dropLast_append_of_getLast? _ _ hL]
        simp
      have : j = rec.markAsActive now := by
        have h3 : rec.markAsActive now = j := by simpa using hj
        exact h3.symm
      rw [this]
      simp only [Job.markAsActive_id, hrecid]
      intro hc
      exact h1.1 (hc ▸ hpidW)



theorem foldl_promoteOne_active (pending : List String) (s : QState) :
    (pending.foldl Queue.promoteOne s).active = s.active := by
  induction pending generalizing s with
  | nil => rfl
  | cons id rest ih => rw [List.foldl_cons, ih, promoteOne_active]

theorem foldl_promoteOne_stats (pending : List String) (s : QState) :
    (pending.foldl Queue.promoteOne s).stats = s.stats := by
  induction pending generalizing s with
  | nil => rfl
  | cons id rest ih => rw [List.foldl_cons, ih, promoteOne_stats]

theorem processDelayedJobs_active (s : QState) (now : Nat) :
    (Queue.processDelayedJobs s now).active = s.active :=
  foldl_promoteOne_active _ _

theorem processDelayedJobs_stats (s : QState) (now : Nat) :
    (Queue.processDelayedJobs s now).stats = s.stats :=
  foldl_promoteOne_stats _ _

theorem failJob_failed_char (s : QState) (j : Job) (err : String) (now : Nat)
    (r : ℚ) (b : Bool) :
    (Queue.failJob s j err now r b).failed =
      if (j.markAsFailed err now).canRetry then s.failed
      else if b then s.failed else j.id :: s.failed := by
  by_cases h : (j.markAsFailed err now).canRetry <;> cases b
  all_goals simp [Queue.failJob, h]
  all_goals simp [Job.canRetry]

theorem failJob_stats_char (s : QState) (j : Job) (err : String) (now : Nat)
    (r : ℚ) (b : Bool) :
    (Queue.failJob s j err now r b).stats.failedJobs =
      if (j.markAsFailed err now).canRetry then s.stats.failedJobs
      else s.stats.failedJobs + 1 := by
  by_cases h : (j.markAsFailed err now).canRetry <;> cases b
  all_goals simp [Queue.failJob, h]
  all_goals simp [Job.canRetry]


/-! ## The claims -/


/-- C1: `Queue.failJob` removes one occurrence of the job's id from the active
list; `markAsFailed` sets status `failed`, the error and `failedAt`, and
increments `attempts`.  If the job can then retry, the id is added to the
delayed sorted set with score `now + backoff` where
`backoff = min(1000·2^attempts, 60000) + jitter`, the jitter lying in
`[0, 0.1·base]` with `attempts` taken after the increment, the record is
written back with status `delayed`, and `stats.failedJobs` is not incremented.
Otherwise `stats.failedJobs` is incremented, the id is left-pushed onto the
failed list unless `removeOnFail` retention is on, and the record is written
back or deleted per retention. -/
theorem failJob_c1 (s : QState) (j : Job) (err : String) (now : Nat)
    (r : ℚ) (removeOnFail : Bool) (h0 : 0 ≤ r) (h1 : r < 1) :
    (Queue.failJob s j err now r removeOnFail).active = lremOne s.active j.id
    ∧ (j.markAsFailed err now).status = .failed
    ∧ (j.markAsFailed err now).error = some err
    ∧ (j.markAsFailed err now).failedAt = some now
    ∧ (j.markAsFailed err now).attempts = j.attempts + 1
    ∧ ((j.markAsFailed err now).canRetry = true →
        (∃ jit : Nat,
          (jit : ℚ) ≤ (1/10) * ((min (1000 * 2 ^ (j.attempts + 1)) 60000 : ℕ) : ℚ)
          ∧ (Queue.failJob s j err now r removeOnFail).delayed =
              zadd s.delayed (now + (min (1000 * 2 ^ (j.attempts + 1)) 60000 + jit)) j.id)
        ∧ (Queue.failJob s j err now r removeOnFail).stats.failedJobs = s.stats.failedJobs
        ∧ (removeOnFail = false →
            hget (Queue.failJob s j err now r removeOnFail).jobs j.id =
              some { j.markAsFailed err now with status := JobStatus.delayed }))
    ∧ ((j.markAsFailed err now).canRetry = false →
        (Queue.failJob s j err now r removeOnFail).stats.failedJobs = s.stats.failedJobs + 1
        ∧ (Queue.failJob s j err now r removeOnFail).failed =
            (if removeOnFail then s.failed else j.id :: s.failed)
        ∧ (removeOnFail = true →
            hget (Queue.failJob s j err now r removeOnFail).jobs j.id = none)
        ∧ (removeOnFail = false →
            hget (Queue.failJob s j err now r removeOnFail).jobs j.id =
              some (j.markAsFailed err now))) := by
  have htoNat : (Queue.calculateRetryDelay (j.attempts + 1) r).toNat =
      min (1000 * 2 ^ (j.attempts + 1)) 60000 +
        (⌊r * (1/10) * ((min (1000 * 2 ^ (j.attempts + 1)) 60000 : ℕ) : ℚ)⌋).toNat := by
    rw [queue_calculateRetryDelay_decomp]
    have hjit : (0:ℤ) ≤ ⌊r * (1/10) * ((min (1000 * 2 ^ (j.attempts + 1)) 60000 : ℕ) : ℚ)⌋ := by
      apply Int.floor_nonneg.mpr
      positivity
    omega
  cases hcr : (j.markAsFailed err now).canRetry with
  | true =>
    have hlt : j.attempts + 1 < j.maxAttempts := by
      have := Job.canRetry_markAsFailed j err now
      rw [hcr] at this
      exact of_decide_eq_true this.symm
    refine ⟨?_, rfl, rfl, rfl, rfl, ?_, ?_⟩
    · cases removeOnFail <;>
        simp [Queue.failJob, Job.canRetry, Job.markAsFailed, hlt]
    · intro _
      refine ⟨⟨(⌊r * (1/10) * ((min (1000 * 2 ^ (j.attempts + 1)) 60000 : ℕ) : ℚ)⌋).toNat,
        ?_, ?_⟩, ?_, ?_⟩
      · have hjit0 : (0:ℤ) ≤ ⌊r * (1/10) * ((min (1000 * 2 ^ (j.attempts + 1)) 60000 : ℕ) : ℚ)⌋ := by
          apply Int.floor_nonneg.mpr
          positivity
        have hle := Int.floor_le (r * (1/10) * ((min (1000 * 2 ^ (j.attempts + 1)) 60000 : ℕ) : ℚ))
        have hpos : (0:ℚ) ≤ ((min (1000 * 2 ^ (j.attempts + 1)) 60000 : ℕ) : ℚ) := by positivity
        have hcast : (((⌊r * (1/10) * ((min (1000 * 2 ^ (j.attempts + 1)) 60000 : ℕ) : ℚ)⌋).toNat : ℕ) : ℚ) =
            ((⌊r * (1/10) * ((min (1000 * 2 ^ (j.attempts + 1)) 60000 : ℕ) : ℚ)⌋ : ℤ) : ℚ) := by
          exact_mod_cast congrArg (fun z : ℤ => (z : ℚ)) (Int.toNat_of_nonneg hjit0)
        rw [hcast]
        nlinarith [hle, hpos]
      · cases removeOnFail <;>
          simp [Queue.failJob, Job.canRetry, Job.markAsFailed, hlt, htoNat, Nat.add_assoc]
      · cases removeOnFail <;>
          simp [Queue.failJob, Job.canRetry, Job.markAsFailed, hlt]
      · intro hro
        subst hro
        simp only [Queue.failJob, Job.canRetry, Job.markAsFailed]
        simp [hlt, hget_hset_self, Job.markAsFailed]
    · intro h
      simp at h
  | false =>
    have hnlt : ¬ (j.attempts + 1 < j.maxAttempts) := by
      have := Job.canRetry_markAsFailed j err now
      rw [hcr] at this
      exact of_decide_eq_false this.symm
    refine ⟨?_, rfl, rfl, rfl, rfl, ?_, ?_⟩
    · cases removeOnFail <;>
        simp [Queue.failJob, Job.canRetry, Job.markAsFailed, hnlt]
    · intro h
      simp at h
    · intro _
      refine ⟨?_, ?_, ?_, ?_⟩
      · cases removeOnFail <;>
          simp [Queue.failJob, Job.canRetry, Job.markAsFailed, hnlt]
      · cases removeOnFail <;>
          simp [Queue.failJob, Job.canRetry, Job.markAsFailed, hnlt]
      · intro hro
        subst hro
        simp only [Queue.failJob, Job.canRetry, Job.markAsFailed]
        simp [hnlt, hget_hdel_self]
      · intro hro
        subst hro
        simp only [Queue.failJob, Job.canRetry, Job.markAsFailed]
        simp [hnlt, hget_hset_self, Job.markAsFailed]

/-- Witness for C1 at a concrete state, job and jitter draw. -/
theorem failJob_c1_witness :
    (Queue.failJob sampleState sampleJob "boom" 5 0 false).active =
      lremOne sampleState.active sampleJob.id :=
  (failJob_c1 sampleState sampleJob "boom" 5 0 false (by norm_num) (by norm_num)).1




/-- C2: in every reachable state of the closed system (queue operations driven
by the REST surface, the workers and the sweeper, with fresh UUID job ids on
add and complete/fail applied to jobs held by a worker), a job id appears in at
most one of the waiting list, the active list and the delayed sorted set. -/
theorem at_most_one_structure_c2 (opts : EffectiveOptions) (w : WState)
    (hw : Reachable opts w) (id : String) :
    (id ∈ w.q.waiting → id ∉ w.q.active ∧ id ∉ delayedIds w.q.delayed)
    ∧ (id ∈ w.q.active → id ∉ w.q.waiting ∧ id ∉ delayedIds w.q.delayed)
    ∧ (id ∈ delayedIds w.q.delayed → id ∉ w.q.waiting ∧ id ∉ w.q.active) := by
  have hnd := (inv_of_reachable opts w hw).nodup
  rw [List.nodup_append, List.nodup_append] at hnd
  obtain ⟨⟨hW, hA, hWA⟩, hD, hWAD⟩ := hnd
  refine ⟨?_, ?_, ?_⟩
  · intro hw'
    exact ⟨fun ha => hWA hw' ha,
      fun hd => hWAD (List.mem_append.mpr (Or.inl hw')) hd⟩
  · intro ha
    exact ⟨fun hw' => hWA hw' ha,
      fun hd => hWAD (List.mem_append.mpr (Or.inr ha)) hd⟩
  · intro hd
    exact ⟨fun hw' => hWAD (List.mem_append.mpr (Or.inl hw')) hd,
      fun ha => hWAD (List.mem_append.mpr (Or.inr ha)) hd⟩

/-- Witness for C2: the state reached by adding a job and claiming it. -/
theorem at_most_one_structure_c2_witness :
    ("a" ∈ (nextW ⟨Queue.addJob {} (Job.mkNew "a" "x" none 0 7 none), []⟩ 8).q.waiting →
      "a" ∉ (nextW ⟨Queue.addJob {} (Job.mkNew "a" "x" none 0 7 none), []⟩ 8).q.active ∧
      "a" ∉ delayedIds (nextW ⟨Queue.addJob {} (Job.mkNew "a" "x" none 0 7 none), []⟩ 8).q.delayed)
    ∧ ("a" ∈ (nextW ⟨Queue.addJob {} (Job.mkNew "a" "x" none 0 7 none), []⟩ 8).q.active →
      "a" ∉ (nextW ⟨Queue.addJob {} (Job.mkNew "a" "x" none 0 7 none), []⟩ 8).q.waiting ∧
      "a" ∉ delayedIds (nextW ⟨Queue.addJob {} (Job.mkNew "a" "x" none 0 7 none), []⟩ 8).q.delayed)
    ∧ ("a" ∈ delayedIds (nextW ⟨Queue.addJob {} (Job.mkNew "a" "x" none 0 7 none), []⟩ 8).q.delayed →
      "a" ∉ (nextW ⟨Queue.addJob {} (Job.mkNew "a" "x" none 0 7 none), []⟩ 8).q.waiting ∧
      "a" ∉ (nextW ⟨Queue.addJob {} (Job.mkNew "a" "x" none 0 7 none), []⟩ 8).q.active) :=
  at_most_one_structure_c2 ⟨5, true, false⟩ _
    (Reachable.step _ _
      (Reachable.step _ _ Reachable.init
        (Step.add ⟨{}, []⟩ "a" "x" none 0 7 none (by simp [delayedIds])))
      (Step.next _ 8)) "a"

/-- C7: `canRetry` holds exactly when `attempts < maxAttempts` and the status
is `failed`; and in every reachable state, every stored job record and every
job held by a worker satisfies `attempts ≤ maxAttempts`. -/
theorem canRetry_attempts_bound_c7 (opts : EffectiveOptions) (w : WState)
    (hw : Reachable opts w) :
    (∀ j : Job, j.canRetry = true ↔
      (j.attempts < j.maxAttempts ∧ j.status = .failed))
    ∧ (∀ p ∈ w.q.jobs, (Prod.snd p).attempts ≤ (Prod.snd p).maxAttempts)
    ∧ (∀ j ∈ w.leased, j.attempts ≤ j.maxAttempts) := by
  have hI := inv_of_reachable opts w hw
  refine ⟨?_, hI.rec_le, fun j hj => Nat.le_of_lt (hI.leased_lt j hj)⟩
  intro j
  simp [Job.canRetry]

/-- Witness for C7 at the state with one added job. -/
theorem canRetry_attempts_bound_c7_witness :
    (∀ j : Job, j.canRetry = true ↔
      (j.attempts < j.maxAttempts ∧ j.status = .failed))
    ∧ (∀ p ∈ (⟨Queue.addJob {} (Job.mkNew "a" "x" none 0 7 none), []⟩ : WState).q.jobs,
        (Prod.snd p).attempts ≤ (Prod.snd p).maxAttempts)
    ∧ (∀ j ∈ (⟨Queue.addJob {} (Job.mkNew "a" "x" none 0 7 none), []⟩ : WState).leased,
        j.attempts ≤ j.maxAttempts) :=
  canRetry_attempts_bound_c7 ⟨5, true, false⟩ _
    (Reachable.step _ _ Reachable.init
      (Step.add ⟨{}, []⟩ "a" "x" none 0 7 none (by simp [delayedIds])))




/-- C5 counterexample: the claimed lower bound `0.9·base·2^(n-1)` fails for the
Queue backoff at the 8th retry (the cap 60000 is below it, even with the
maximal jitter the delay stays at most 66000 < 115200·0.9), and fails for the
webhook backoff already at the 1st retry when the random draw is 0 (the ±25%
jitter gives 750 < 900). -/
theorem backoff_bounds_c5_counterexample :
    Queue.calculateRetryDelay 8 0 = 60000
    ∧ ¬ ((9/10 : ℚ) * (1000 * 2 ^ (8 - 1)) ≤
        ((Queue.calculateRetryDelay 8 0 : ℤ) : ℚ))
    ∧ WebhookService.calculateRetryDelay 1 0 = 750
    ∧ ¬ ((9/10 : ℚ) * (1000 * 2 ^ (1 - 1)) ≤
        ((WebhookService.calculateRetryDelay 1 0 : ℤ) : ℚ)) := by
  have h1 : Queue.calculateRetryDelay 8 0 = 60000 := by
    norm_num [Queue.calculateRetryDelay]
  have h2 : WebhookService.calculateRetryDelay 1 0 = 750 := by
    norm_num [WebhookService.calculateRetryDelay]
  refine ⟨h1, ?_, h2, ?_⟩
  · rw [h1]
    norm_num
  · rw [h2]
    norm_num

/-- C5 amended: for every retry index and every jitter draw, the Queue's n-th
retry delay `d` satisfies `D ≤ d ≤ 1.1·D` with `D = min(1000·2^n, 60000)`
(the jitter is in `[0, 0.1·D)` and the lower bound is the capped value), and
the webhook's n-th retry delay satisfies `0.7·E ≤ d ≤ 1.3·E` with
`E = min(1000·2^(n-1), 30000)` (the jitter is ±25% of `E`, plus rounding). -/
theorem backoff_bounds_c5_amended (n : Nat) (r : ℚ) (h0 : 0 ≤ r) (h1 : r < 1) :
    (((min (1000 * 2 ^ n) 60000 : ℕ) : ℤ) ≤ Queue.calculateRetryDelay n r
      ∧ ((Queue.calculateRetryDelay n r : ℤ) : ℚ) ≤
          (11/10) * ((min (1000 * 2 ^ n) 60000 : ℕ) : ℚ))
    ∧ ((7/10 : ℚ) * ((min (1000 * 2 ^ (n - 1)) 30000 : ℕ) : ℚ) ≤
          ((WebhookService.calculateRetryDelay n r : ℤ) : ℚ)
      ∧ ((WebhookService.calculateRetryDelay n r : ℤ) : ℚ) ≤
          (13/10 : ℚ) * ((min (1000 * 2 ^ (n - 1)) 30000 : ℕ) : ℚ)) := by
  constructor
  · constructor
    · unfold Queue.calculateRetryDelay
      rw [Int.le_floor]
      push_cast
      have hD : (0:ℚ) ≤ min ((1000:ℚ) * 2 ^ n) 60000 := by positivity
      nlinarith [hD]
    · unfold Queue.calculateRetryDelay
      have h := Int.floor_le (α := ℚ) (min ((1000:ℚ) * 2 ^ n) 60000 +
        r * (1/10) * min ((1000:ℚ) * 2 ^ n) 60000)
      push_cast
      have hD : (0:ℚ) ≤ min ((1000:ℚ) * 2 ^ n) 60000 := by positivity
      nlinarith [h, hD]
  · have hcast : ((min (1000 * 2 ^ (n - 1)) 30000 : ℕ) : ℚ) =
        min ((1000:ℚ) * 2 ^ (n - 1)) 30000 := by push_cast; ring_nf
    have hE : (1000 : ℚ) ≤ min ((1000:ℚ) * 2 ^ (n - 1)) 30000 := by
      have h1000 : (1000 : ℕ) ≤ min (1000 * 2 ^ (n - 1)) 30000 := by
        refine le_min ?_ (by norm_num)
        have := Nat.one_le_two_pow (n := n - 1)
        omega
      rw [← hcast]
      exact_mod_cast h1000
    simp only [WebhookService.calculateRetryDelay]
    rw [hcast]
    have hfl := Int.sub_one_lt_floor (min ((1000:ℚ) * 2 ^ (n - 1)) 30000 +
      min ((1000:ℚ) * 2 ^ (n - 1)) 30000 * (1/4) * (r * 2 - 1) + 1/2)
    have hfu := Int.floor_le (min ((1000:ℚ) * 2 ^ (n - 1)) 30000 +
      min ((1000:ℚ) * 2 ^ (n - 1)) 30000 * (1/4) * (r * 2 - 1) + 1/2)
    constructor
    · nlinarith [hfl, hE]
    · nlinarith [hfu, hE]

/-- Witness for C5 (amended) at the second retry with jitter draw 1/2. -/
theorem backoff_bounds_c5_amended_witness :
    ((min (1000 * 2 ^ 2) 60000 : ℕ) : ℤ) ≤ Queue.calculateRetryDelay 2 (1/2) :=
  ((backoff_bounds_c5_amended 2 (1/2) (by norm_num) (by norm_num)).1).1




/-- C8: if `removeJob(id)` returns true then, along any later sequence of
operations that does not re-insert that id (no `addJob` of a job with that id
and no `failJob` of a held job with that id), no `getNextJob` call can return
a job with that id. -/
theorem removeJob_total_c8 (opts : EffectiveOptions) (w : WState)
    (hw : Reachable opts w) (id : String)
    (_hrm : (Queue.removeJob w.q id).2 = true) (w'' : WState)
    (hra : ReachAvoiding opts id ⟨(Queue.removeJob w.q id).1, w.leased⟩ w'') :
    ∀ (now : Nat) (j : Job),
      (Queue.getNextJob w''.q now).2 = some j → j.id ≠ id := by
  have hI := inv_of_reachable opts w hw
  have hI' : Inv ⟨(Queue.removeJob w.q id).1, w.leased⟩ := inv_remove w id hI
  have ha' : id ∉ (Queue.removeJob w.q id).1.waiting ∧
      id ∉ delayedIds (Queue.removeJob w.q id).1.delayed := by
    simp only [Queue.removeJob]
    constructor
    · intro hm
      exact (by simpa using (List.mem_filter.mp hm).2 : ¬ id = id) rfl
    · rw [delayedIds_zrem]
      intro hm
      exact (by simpa using (List.mem_filter.mp hm).2 : ¬ id = id) rfl
  obtain ⟨hI'', ha''⟩ := inv_absent_reachAvoiding opts id _ w'' hra hI' ha'
  intro now j hj
  exact getNextJob_ne_of_absent w'' now id hI'' ha'' j hj

/-- Witness for C8: enqueue "a" then "b", remove "a"; the next claim returns
the job "b", whose id differs from the removed one. -/
theorem removeJob_total_c8_witness :
    ((Job.mkNew "b" "y" none 0 7 none).markAsActive 0).id ≠ "a" :=
  removeJob_total_c8 ⟨5, true, false⟩
    ⟨Queue.addJob (Queue.addJob {} (Job.mkNew "a" "x" none 0 7 none))
      (Job.mkNew "b" "y" none 0 7 none), []⟩
    (Reachable.step _ _
      (Reachable.step _ _ Reachable.init
        (Step.add ⟨{}, []⟩ "a" "x" none 0 7 none (by simp [delayedIds])))
      (Step.add ⟨Queue.addJob {} (Job.mkNew "a" "x" none 0 7 none), []⟩
        "b" "y" none 0 7 none (by decide)))
    "a" (by decide) _ (ReachAvoiding.refl _) 0
    ((Job.mkNew "b" "y" none 0 7 none).markAsActive 0) (by decide)




/-- C9: when `getNextJob` pops an id whose serialized record is absent from the
jobs hash, it returns none; the popped id is in none of the structural sets
afterwards (it is not pushed back onto waiting, nor onto active, nor into
delayed), the stats hash is untouched, no record is written for it, and no
error reaches the caller (the operation returns normally). -/
theorem getNextJob_missing_record_c9 (s : QState) (now : Nat) (p : String)
    (hL : (Queue.processDelayedJobs s now).waiting.getLast? = some p)
    (hg : hget (Queue.processDelayedJobs s now).jobs p = none)
    (honce : p ∉ (Queue.processDelayedJobs s now).waiting.dropLast)
    (hdel : p ∉ delayedIds (Queue.processDelayedJobs s now).delayed) :
    (Queue.getNextJob s now).2 = none
    ∧ p ∉ (Queue.getNextJob s now).1.waiting
    ∧ (Queue.getNextJob s now).1.active = s.active
    ∧ p ∉ delayedIds (Queue.getNextJob s now).1.delayed
    ∧ (Queue.getNextJob s now).1.stats = s.stats
    ∧ hget (Queue.getNextJob s now).1.jobs p = none := by
  rw [getNextJob_char_missing s now p hL hg]
  exact ⟨rfl, honce, processDelayedJobs_active s now, hdel,
    processDelayedJobs_stats s now, hg⟩

/-- Witness for C9: one waiting id with an empty jobs hash. -/
theorem getNextJob_missing_record_c9_witness :
    (Queue.getNextJob { waiting := ["ghost"] } 0).2 = none
    ∧ "ghost" ∉ (Queue.getNextJob { waiting := ["ghost"] } 0).1.waiting
    ∧ (Queue.getNextJob { waiting := ["ghost"] } 0).1.active =
        ({ waiting := ["ghost"] } : QState).active
    ∧ "ghost" ∉ delayedIds (Queue.getNextJob { waiting := ["ghost"] } 0).1.delayed
    ∧ (Queue.getNextJob { waiting := ["ghost"] } 0).1.stats =
        ({ waiting := ["ghost"] } : QState).stats
    ∧ hget (Queue.getNextJob { waiting := ["ghost"] } 0).1.jobs "ghost" = none :=
  getNextJob_missing_record_c9 { waiting := ["ghost"] } 0 "ghost"
    (by decide) (by decide) (by decide) (by decide)

/-- C10: a queue constructed with no explicit retention options resolves
`removeOnComplete = true` and `removeOnFail = false`; completing a job under
the default deletes its record (a later `getJob` finds nothing), while a
terminal failure under the default keeps the record and left-pushes the id
onto the failed list. -/
theorem retention_defaults_c10 (s : QState) (j : Job) (res : Option String)
    (err : String) (now : Nat) (r : ℚ)
    (hterm : (j.markAsFailed err now).canRetry = false) :
    (resolveOptions 5 {}).removeOnComplete = true
    ∧ (resolveOptions 5 {}).removeOnFail = false
    ∧ Queue.getJob (Queue.completeJob s j res now
        (resolveOptions 5 {}).removeOnComplete) j.id = none
    ∧ hget (Queue.failJob s j err now r
        (resolveOptions 5 {}).removeOnFail).jobs j.id =
        some (j.markAsFailed err now)
    ∧ j.id ∈ (Queue.failJob s j err now r
        (resolveOptions 5 {}).removeOnFail).failed := by
  refine ⟨rfl, rfl, ?_, ?_, ?_⟩
  · show Queue.getJob (Queue.completeJob s j res now true) j.id = none
    unfold Queue.getJob
    rw [Queue.completeJob_jobs, if_pos rfl]
    exact hget_hdel_self _ _
  · show hget (Queue.failJob s j err now r false).jobs j.id =
      some (j.markAsFailed err now)
    rw [Queue.failJob_jobs, if_neg (by simp), hget_hset_self]
    rw [if_neg (by simp [hterm])]
  · show j.id ∈ (Queue.failJob s j err now r false).failed
    rw [failJob_failed_char, if_neg (by simp [hterm]), if_neg (by simp)]
    exact List.mem_cons_self _ _

/-- Witness for C10 on a job whose failure is terminal. -/
theorem retention_defaults_c10_witness :
    Queue.getJob (Queue.completeJob sampleState
      { id := "j", attempts := 2, maxAttempts := 3 } none 9
      (resolveOptions 5 {}).removeOnComplete) "j" = none :=
  ((retention_defaults_c10 sampleState
    { id := "j", attempts := 2, maxAttempts := 3 } none "boom" 9 0
    (by decide)).2.2).1




/-- C3 counterexample: the spread in `makeHttpRequest` puts the caller's
headers last, so a caller-supplied `X-Queue-Service-Job-Id` overrides the
correlation header and the issued request does not carry the job's id. -/
theorem task_headers_c3_counterexample :
    HttpTaskWorker.requestHeaders [("X-Queue-Service-Job-Id", "spoofed")]
      sampleJob "X-Queue-Service-Job-Id" = some "spoofed"
    ∧ sampleJob.id ≠ "spoofed" := by
  constructor
  · rfl
  · decide

/-- C3 amended: caller headers override every default, the three correlation
headers included; the correlation headers equal the job's id, `attempts` and
`maxAttempts` only when the caller does not supply a header of the same name,
and a key absent from the caller headers falls back to the default object. -/
theorem task_headers_c3_amended (hs : List (String × String)) (job : Job)
    (k : String) :
    (∀ v, HttpTaskWorker.lookupHeader hs k = some v →
      HttpTaskWorker.requestHeaders hs job k = some v)
    ∧ (HttpTaskWorker.lookupHeader hs "X-Queue-Service-Job-Id" = none →
        HttpTaskWorker.requestHeaders hs job "X-Queue-Service-Job-Id" =
          some job.id)
    ∧ (HttpTaskWorker.lookupHeader hs "X-Queue-Service-Attempt" = none →
        HttpTaskWorker.requestHeaders hs job "X-Queue-Service-Attempt" =
          some (toString job.attempts))
    ∧ (HttpTaskWorker.lookupHeader hs "X-Queue-Service-Max-Attempts" = none →
        HttpTaskWorker.requestHeaders hs job "X-Queue-Service-Max-Attempts" =
          some (toString job.maxAttempts))
    ∧ (HttpTaskWorker.lookupHeader hs k = none →
        HttpTaskWorker.requestHeaders hs job k =
          HttpTaskWorker.lookupHeader (HttpTaskWorker.defaultHeaders job) k) := by
  refine ⟨?_, ?_, ?_, ?_, ?_⟩
  · intro v hv
    simp [HttpTaskWorker.requestHeaders, hv]
  · intro h
    simp only [HttpTaskWorker.requestHeaders, h]
    rfl
  · intro h
    simp only [HttpTaskWorker.requestHeaders, h]
    rfl
  · intro h
    simp only [HttpTaskWorker.requestHeaders, h]
    rfl
  · intro h
    simp [HttpTaskWorker.requestHeaders, h]

/-- Witness for C3 (amended): with no caller headers the job-id correlation
header is the job's id. -/
theorem task_headers_c3_amended_witness :
    HttpTaskWorker.requestHeaders [] sampleJob "X-Queue-Service-Job-Id" =
      some sampleJob.id :=
  (task_headers_c3_amended [] sampleJob "X-Queue-Service-Job-Id").2.1 rfl




theorem executeWithRetry_state (s : QState) (p : WebhookPayload)
    (o : Nat → TryOutcome) :
    ∀ (k a N : Nat), N - a ≤ k →
      (WebhookService.executeWithRetry s p a N o).1 = s := by
  intro k
  induction k with
  | zero =>
    intro a N hk
    rw [WebhookService.executeWithRetry]
    cases o a with
    | success st => rfl
    | httpFailure st reason =>
      dsimp only
      rw [dif_neg (by omega)]
    | transportError msg =>
      dsimp only
      rw [dif_neg (by omega)]
  | succ k ih =>
    intro a N hk
    rw [WebhookService.executeWithRetry]
    cases o a with
    | success st => rfl
    | httpFailure st reason =>
      dsimp only
      by_cases h : a < N
      · rw [dif_pos h]
        exact ih (a + 1) N (by omega)
      · rw [dif_neg h]
    | transportError msg =>
      dsimp only
      by_cases h : a < N
      · rw [dif_pos h]
        exact ih (a + 1) N (by omega)
      · rw [dif_neg h]

/-- C6: webhook dispatch never alters the queue's Redis state — the worker's
`executeWebhook` only calls the webhook service and logs, and the service's
retry loop performs no store operation — so every field of the job's recorded
state (status, result, error, attempts, and the id's membership in every
structural set) is the same after the dispatch as before it, whatever the
delivery outcome at each try (2xx, non-2xx, transport error, or exhaustion of
all retries).  The `Job` value itself is read only, through `createPayload`. -/
theorem webhook_preserves_state_c6 (s : QState) (job : Job) (event : String)
    (serviceMaxRetries : Nat) (outcomes : Nat → TryOutcome) :
    (Worker.executeWebhook s job event serviceMaxRetries outcomes).1 = s
    ∧ ∀ (payload : WebhookPayload) (a N : Nat),
        (WebhookService.executeWithRetry s payload a N outcomes).1 = s := by
  constructor
  · unfold Worker.executeWebhook
    cases job.webhook with
    | none => rfl
    | some cfg =>
      exact executeWithRetry_state s _ outcomes (_ - 1) 1 _ (Nat.le_refl _)
  · intro payload a N
    exact executeWithRetry_state s payload outcomes (N - a) a N (Nat.le_refl _)




/-- C4: the payload's `webhook.attempt` never reflects the current try.
`executeWithRetry` spreads `attempt`/`maxAttempts` as stray top-level keys
(`{...payload, attempt, maxAttempts}`) instead of updating the declared
`webhook` block, and `createPayload` fills `webhook.maxAttempts` from the
service-wide default rather than the webhook's configured `retry_attempts`;
so with three failing tries the three bodies sent carry
`webhook.attempt = [1, 1, 1]` (the claim requires `[1, 2, 3]`) while the
undeclared top-level keys count `[1, 2, 3]`. -/
theorem webhook_attempt_stuck_c4 :
    ((WebhookService.executeWebhook {} sampleJob "job.failed" {} 3
        (fun _ => TryOutcome.httpFailure 500 "Internal Server Error")).2.1.map
      (fun b => b.webhook.attempt) = [1, 1, 1])
    ∧ ((WebhookService.executeWebhook {} sampleJob "job.failed" {} 3
        (fun _ => TryOutcome.httpFailure 500 "Internal Server Error")).2.1.map
      (fun b => b.topAttempt) = [some 1, some 2, some 3])
    ∧ ((WebhookService.executeWebhook {} sampleJob "job.failed" {} 3
        (fun _ => TryOutcome.httpFailure 500 "Internal Server Error")).2.1.map
      (fun b => b.webhook.maxAttempts) = [3, 3, 3])
    ∧ ¬ ((WebhookService.executeWebhook {} sampleJob "job.failed" {} 3
        (fun _ => TryOutcome.httpFailure 500 "Internal Server Error")).2.1.map
      (fun b => b.webhook.attempt) = [1, 2, 3]) := by
  have hrun : (WebhookService.executeWebhook {} sampleJob "job.failed" {} 3
      (fun _ => TryOutcome.httpFailure 500 "Internal Server Error")).2.1.map
      (fun b => (b.webhook.attempt, b.topAttempt, b.webhook.maxAttempts)) =
      [(1, some 1, 3), (1, some 2, 3), (1, some 3, 3)] := by
    simp [WebhookService.executeWebhook, WebhookService.executeWithRetry,
      WebhookService.createPayload, WebhookService.sentOnTry,
      WebhookService.orDefaultNat]
  refine ⟨?_, ?_, ?_, ?_⟩
  · have := congrArg (List.map (fun e => e.1)) hrun
    simpa [Function.comp] using this
  · have := congrArg (List.map (fun e => e.2.1)) hrun
    simpa [Function.comp] using this
  · have := congrArg (List.map (fun e => e.2.2)) hrun
    simpa [Function.comp] using this
  · have := congrArg (List.map (fun e => e.1)) hrun
    simp only [List.map_map] at this
    intro hcontra
    rw [show ((fun e : Nat × Option Nat × Nat => e.1) ∘
      (fun b : WebhookPayload => (b.webhook.attempt, b.topAttempt, b.webhook.maxAttempts))) =
      (fun b : WebhookPayload => b.webhook.attempt) from rfl] at this
    rw [hcontra] at this
    simp at this


end QueueService
